import Mathlib

/-!
# Verification of the MLTA indirect-call resolver (CallGraph.cc)

A shallow embedding of the core of the multi-layer type analysis
(`MLTA`) from `CallGraph.cc`: structural IR types, the fuzzy signature
matcher, the alias-struct-pointer collector, the layer walker
(`nextLayerBaseType` / `getBaseTypeChain` / `getGEPLayerTypes`), the
type-flow collection passes, the dependent-type closure
(`getDependentTypes`) and the resolver (`findCalleesWithMLTA`).

Modelling conventions, stated once:
* LLVM `Type*` values are modelled by `TyV`: a structural type `Ty`
  tagged with the id of the `LLVMContext` that owns it.  Within one
  context LLVM uniques structurally identical types, so `Type*`
  pointer equality is `TyV` equality; across contexts (one per module
  in this analysis) equal structures are distinct `Type*` values.
* Hash functions (`typeHash`, `typeIdxHash`, `callHash`, `funcHash`)
  live in a header that is not part of the sources; the spec (§4.2)
  states they are injective on structure ("equal iff structurally
  equal"), so they are modelled by the structural keys themselves.
* IR values are nodes of a finite graph: ids `< N` mapping to a
  `VNode` describing the instruction kind and operands, mirroring the
  use-def edges the walker follows.
* Functions are opaque ids (`Nat`); `FuncSet` is `Finset Nat`.
-/

set_option maxRecDepth 4000

namespace MLTA

/-- Structural LLVM types: integers, pointers, named structs, arrays,
vectors, function types, and an opaque remainder. -/
inductive Ty : Type where
  | int (width : Nat) : Ty
  | ptr (elem : Ty) : Ty
  | strct (name : String) (elems : List Ty) : Ty
  | arr (elem : Ty) (n : Nat) : Ty
  | vec (elem : Ty) (n : Nat) : Ty
  | func (ret : Ty) (args : List Ty) : Ty
  | other (tag : Nat) : Ty

mutual

/-- Boolean structural equality on `Ty` (deriving is unavailable for
nested inductives). -/
def Ty.beq : Ty → Ty → Bool
  | .int w, .int v => w == v
  | .ptr a, .ptr b => Ty.beq a b
  | .strct n es, .strct m fs => n == m && Ty.beqL es fs
  | .arr a n, .arr b m => Ty.beq a b && n == m
  | .vec a n, .vec b m => Ty.beq a b && n == m
  | .func r as, .func s bs => Ty.beq r s && Ty.beqL as bs
  | .other n, .other m => n == m
  | _, _ => false

/-- Boolean equality on lists of `Ty`. -/
def Ty.beqL : List Ty → List Ty → Bool
  | [], [] => true
  | a :: as, b :: bs => Ty.beq a b && Ty.beqL as bs
  | _, _ => false

end

mutual

theorem Ty.eq_of_beq : ∀ a b : Ty, Ty.beq a b = true → a = b
  | .int _, .int _, h => by
      simp only [Ty.beq, Nat.beq_eq_true_eq] at h; rw [h]
  | .ptr a, .ptr b, h => by
      rw [Ty.eq_of_beq a b h]
  | .strct n es, .strct m fs, h => by
      simp only [Ty.beq, Bool.and_eq_true, beq_iff_eq] at h
      rw [h.1, Ty.eqL_of_beqL es fs h.2]
  | .arr a n, .arr b m, h => by
      simp only [Ty.beq, Bool.and_eq_true, Nat.beq_eq_true_eq] at h
      rw [h.2, Ty.eq_of_beq a b h.1]
  | .vec a n, .vec b m, h => by
      simp only [Ty.beq, Bool.and_eq_true, Nat.beq_eq_true_eq] at h
      rw [h.2, Ty.eq_of_beq a b h.1]
  | .func r as, .func s bs, h => by
      simp only [Ty.beq, Bool.and_eq_true] at h
      rw [Ty.eq_of_beq r s h.1, Ty.eqL_of_beqL as bs h.2]
  | .other n, .other m, h => by
      simp only [Ty.beq, Nat.beq_eq_true_eq] at h; rw [h]

theorem Ty.eqL_of_beqL : ∀ as bs : List Ty, Ty.beqL as bs = true → as = bs
  | [], [], _ => rfl
  | a :: as, b :: bs, h => by
      simp only [Ty.beqL, Bool.and_eq_true] at h
      rw [Ty.eq_of_beq a b h.1, Ty.eqL_of_beqL as bs h.2]

end

mutual

theorem Ty.beq_refl : ∀ a : Ty, Ty.beq a a = true
  | .int w => by simp [Ty.beq]
  | .ptr a => Ty.beq_refl a
  | .strct n es => by simp [Ty.beq, Ty.beqL_refl es]
  | .arr a n => by simp [Ty.beq, Ty.beq_refl a]
  | .vec a n => by simp [Ty.beq, Ty.beq_refl a]
  | .func r as => by simp [Ty.beq, Ty.beq_refl r, Ty.beqL_refl as]
  | .other n => by simp [Ty.beq]

theorem Ty.beqL_refl : ∀ as : List Ty, Ty.beqL as as = true
  | [] => rfl
  | a :: as => by simp [Ty.beqL, Ty.beq_refl a, Ty.beqL_refl as]

end

instance : DecidableEq Ty := fun a b =>
  if h : Ty.beq a b = true then .isTrue (Ty.eq_of_beq a b h)
  else .isFalse (fun he => h (he ▸ Ty.beq_refl a))

/-- An LLVM `Type*`: a structural type owned by an `LLVMContext`
(identified by a `Nat`).  `Type*` pointer equality is equality of this
pair. -/
structure TyV : Type where
  ctx : Nat
  ty : Ty
  deriving DecidableEq

/-- `Type::isPointerTy`. -/
def Ty.isPtr : Ty → Bool
  | .ptr _ => true
  | _ => false

/-- `Type::isStructTy`. -/
def Ty.isStruct : Ty → Bool
  | .strct _ _ => true
  | _ => false

/-- `Type::isIntegerTy`. -/
def Ty.isInt : Ty → Bool
  | .int _ => true
  | _ => false

/-- `Type::getStructName` (empty for non-structs, which the callers
never consult). -/
def Ty.structName : Ty → String
  | .strct n _ => n
  | _ => ""

/-- `Type::getIntegerBitWidth` (0 for non-integers, never consulted). -/
def Ty.intWidth : Ty → Nat
  | .int w => w
  | _ => 0

/-- `Type::getPointerElementType` (junk for non-pointers, never
consulted on them). -/
def Ty.pointee : Ty → Ty
  | .ptr e => e
  | _ => .other 0

/-- `MLTA::isCompositeType`: struct, array or vector. -/
def isCompositeType (t : Ty) : Bool :=
  t.isStruct || (match t with | .arr _ _ => true | _ => false)
    || (match t with | .vec _ _ => true | _ => false)

/-- Per-module type environment of the analysis context: which
`LLVMContext` owns each module's types and the module's pointer width.
`Int8PtrTy` and `IntPtrTy` are the per-module maps the analysis keeps;
their entries are the uniqued `i8*` and pointer-sized integer types of
the module's context. -/
structure TyCtx : Type where
  ctxOf : Nat → Nat
  ptrBits : Nat → Nat

/-- `Int8PtrTy[M]`: the `i8*` type of module `M`'s context. -/
def int8PtrTy (tc : TyCtx) (m : Nat) : TyV :=
  ⟨tc.ctxOf m, .ptr (.int 8)⟩

/-- `IntPtrTy[M]`: the pointer-sized integer type of module `M`'s
context. -/
def intPtrTy (tc : TyCtx) (m : Nat) : TyV :=
  ⟨tc.ctxOf m, .int (tc.ptrBits m)⟩

/-- The peeling loop of `fuzzyTypeMatch`:
`while (Ty1->isPointerTy() && Ty2->isPointerTy()) { peel both }`. -/
def peelPtrs : Ty → Ty → Ty × Ty
  | .ptr a, .ptr b => peelPtrs a b
  | a, b => (a, b)

/-- `MLTA::fuzzyTypeMatch(Ty1, Ty2, M1, M2)`: identical types match;
otherwise peel matching pointer pairs, then compare struct names,
integer widths, and finally treat general pointers (`i8*`,
pointer-sized integers) as wildcards.  The final clause consults
`Int8PtrTy[M1]` and `IntPtrTy[M2]` on both sides exactly as the source
does. -/
def fuzzyTypeMatch (tc : TyCtx) (t1 t2 : TyV) (m1 m2 : Nat) : Bool :=
  if t1 = t2 then true
  else
    let p := peelPtrs t1.ty t2.ty
    let a : TyV := ⟨t1.ctx, p.1⟩
    let b : TyV := ⟨t2.ctx, p.2⟩
    if a.ty.isStruct && b.ty.isStruct && (a.ty.structName = b.ty.structName) then
      true
    else if a.ty.isInt && b.ty.isInt && a.ty.intWidth = b.ty.intWidth then
      true
    else if (a = int8PtrTy tc m1 && (b.ty.isPtr || b = intPtrTy tc m2))
         || (b = int8PtrTy tc m1 && (a.ty.isPtr || a = intPtrTy tc m2)) then
      true
    else
      false

theorem peelPtrs_ptr_ptr (a b : Ty) : peelPtrs (.ptr a) (.ptr b) = peelPtrs a b := rfl

theorem peelPtrs_not_ptr_left (x y : Ty) (h : x.isPtr = false) : peelPtrs x y = (x, y) := by
  cases x <;> cases y <;> simp_all [peelPtrs, Ty.isPtr]

theorem peelPtrs_not_ptr_right (x y : Ty) (h : y.isPtr = false) : peelPtrs x y = (x, y) := by
  cases x <;> cases y <;> simp_all [peelPtrs, Ty.isPtr]

theorem peelPtrs_swap_base (x y : Ty) (h : x.isPtr = false ∨ y.isPtr = false) :
    peelPtrs y x = ((peelPtrs x y).2, (peelPtrs x y).1) := by
  rcases h with h | h
  · rw [peelPtrs_not_ptr_right y x h, peelPtrs_not_ptr_left x y h]
  · rw [peelPtrs_not_ptr_left y x h, peelPtrs_not_ptr_right x y h]

/-- Swapping the arguments of the peeling loop swaps its results. -/
theorem peelPtrs_swap : ∀ x y : Ty, peelPtrs y x = ((peelPtrs x y).2, (peelPtrs x y).1)
  | .ptr a, .ptr b => by
      rw [peelPtrs_ptr_ptr, peelPtrs_ptr_ptr]; exact peelPtrs_swap a b
  | .ptr _, .int _ => peelPtrs_swap_base _ _ (.inr rfl)
  | .ptr _, .strct _ _ => peelPtrs_swap_base _ _ (.inr rfl)
  | .ptr _, .arr _ _ => peelPtrs_swap_base _ _ (.inr rfl)
  | .ptr _, .vec _ _ => peelPtrs_swap_base _ _ (.inr rfl)
  | .ptr _, .func _ _ => peelPtrs_swap_base _ _ (.inr rfl)
  | .ptr _, .other _ => peelPtrs_swap_base _ _ (.inr rfl)
  | .int _, _ => peelPtrs_swap_base _ _ (.inl rfl)
  | .strct _ _, _ => peelPtrs_swap_base _ _ (.inl rfl)
  | .arr _ _, _ => peelPtrs_swap_base _ _ (.inl rfl)
  | .vec _ _, _ => peelPtrs_swap_base _ _ (.inl rfl)
  | .func _ _, _ => peelPtrs_swap_base _ _ (.inl rfl)
  | .other _, _ => peelPtrs_swap_base _ _ (.inl rfl)

theorem bool_and3_comm (p q : Bool) (s t : Prop) [Decidable s] [Decidable t]
    (hst : s ↔ t) : (p && q && decide s) = (q && p && decide t) := by
  rw [decide_eq_decide.mpr hst, Bool.and_comm p q]

/-- C2, amended half: within a single module, `fuzzyTypeMatch` is
symmetric in its type arguments. -/
theorem fuzzyTypeMatch_symm_same_module (tc : TyCtx) (a b : TyV) (m : Nat) :
    fuzzyTypeMatch tc a b m m = fuzzyTypeMatch tc b a m m := by
  by_cases hab : a = b
  · rw [hab]
  · unfold fuzzyTypeMatch
    rw [if_neg hab, if_neg (Ne.symm hab)]
    rw [peelPtrs_swap a.ty b.ty]
    set p := peelPtrs a.ty b.ty with hp
    set x : TyV := ⟨a.ctx, p.1⟩ with hx
    set y : TyV := ⟨b.ctx, p.2⟩ with hy
    have h1 : (y.ty.isStruct && x.ty.isStruct
          && decide (y.ty.structName = x.ty.structName))
        = (x.ty.isStruct && y.ty.isStruct
          && decide (x.ty.structName = y.ty.structName)) :=
      bool_and3_comm _ _ _ _ ⟨Eq.symm, Eq.symm⟩
    have h2 : (y.ty.isInt && x.ty.isInt && decide (y.ty.intWidth = x.ty.intWidth))
        = (x.ty.isInt && y.ty.isInt && decide (x.ty.intWidth = y.ty.intWidth)) :=
      bool_and3_comm _ _ _ _ ⟨Eq.symm, Eq.symm⟩
    have h3 : ((y = int8PtrTy tc m && (x.ty.isPtr || x = intPtrTy tc m))
          || (x = int8PtrTy tc m && (y.ty.isPtr || y = intPtrTy tc m)))
        = ((x = int8PtrTy tc m && (y.ty.isPtr || y = intPtrTy tc m))
          || (y = int8PtrTy tc m && (x.ty.isPtr || x = intPtrTy tc m))) :=
      Bool.or_comm _ _
    simp only [h1, h2, h3]

/-- Context/pointer-width environment for the concrete counterexample:
module 0 and module 1 own distinct `LLVMContext`s, both with 64-bit
pointers. -/
def tcX : TyCtx := ⟨fun m => m, fun _ => 64⟩

/-- C2 counterexample: with `A = Int8PtrTy[M1]` (the `i8*` of module 0)
and `B = IntPtrTy[M2]` (the `i64` of module 1),
`fuzzyTypeMatch(A, B, M1, M2) = true` but
`fuzzyTypeMatch(B, A, M2, M1) = false`: the wildcard clause reads
`Int8PtrTy[M1]` and `IntPtrTy[M2]` instead of `M2`/`M1`, so the match is
not symmetric across modules. -/
theorem fuzzyTypeMatch_not_symmetric_cx :
    fuzzyTypeMatch tcX ⟨0, .ptr (.int 8)⟩ ⟨1, .int 64⟩ 0 1 = true ∧
    fuzzyTypeMatch tcX ⟨1, .int 64⟩ ⟨0, .ptr (.int 8)⟩ 1 0 = false := by
  constructor <;> rfl

/-! ## Association-list lookup (`std::map::find`) -/

/-- First-match association lookup, modelling `map::find`. -/
def lookupA {κ β : Type} [DecidableEq κ] : List (κ × β) → κ → Option β
  | [], _ => none
  | (k, v) :: rest, key => if k = key then some v else lookupA rest key

/-! ## Signature matching: `findCalleesWithType` (C10)

The argument loop iterates over the *callee's* formal parameters and
advances the call-site argument iterator in lockstep without a bounds
check; a read past `arg_end()` is modelled as `none`. -/

/-- An address-taken function as the matcher sees it. -/
structure FuncRec : Type where
  fid : Nat
  vararg : Bool
  intrinsic : Bool
  params : List TyV
  retTy : TyV
  fhash : Nat
  module : Nat
  deriving DecidableEq

/-- A call site as the matcher and resolver see it: `chash` is
`callHash(CI)`, `funcTy` the call's function type, `calledOp` the id of
the called operand in the value graph. -/
structure CallRec : Type where
  inlineAsm : Bool
  chash : Nat
  args : List TyV
  retTy : TyV
  module : Nat
  funcTy : TyV
  calledOp : Nat
  deriving DecidableEq

/-- The argument-matching loop of `findCalleesWithType`: one caller
argument is read per formal parameter of the callee.  Reading past the
end of the call's argument list (`++AI` beyond `arg_end`) is an
out-of-bounds access, modelled as `none`. -/
def matchArgs (tc : TyCtx) (mCallee mCaller : Nat) :
    List TyV → List TyV → Option Bool
  | [], _ => some true
  | d :: ps, a :: as =>
      if fuzzyTypeMatch tc d a mCallee mCaller then
        matchArgs tc mCallee mCaller ps as
      else some false
  | _ :: _, [] => none

/-- Whether `findCalleesWithType` inserts `F` for call `CI`: vararg
functions skip the arity check; intrinsics are skipped; equal hashes
match outright; otherwise the argument loop runs, then return types are
fuzzy-matched.  `none` signals the out-of-bounds argument read. -/
def considerFunc (tc : TyCtx) (ci : CallRec) (f : FuncRec) : Option Bool :=
  if !f.vararg && f.params.length ≠ ci.args.length then some false
  else if f.intrinsic then some false
  else if ci.chash = f.fhash then some true
  else do
    let m ← matchArgs tc f.module ci.module f.params ci.args
    if m then pure (fuzzyTypeMatch tc f.retTy ci.retTy f.module ci.module)
    else pure false

/-- `MLTA::findCalleesWithType(CI, S)`: inline asm and cache hits
short-circuit; otherwise every address-taken function is considered and
the result is cached.  `none` propagates an out-of-bounds read. -/
def findCalleesWithType (tc : TyCtx) (addrTaken : List FuncRec)
    (cache : List (Nat × Finset Nat)) (ci : CallRec) (S0 : Finset Nat) :
    Option (Finset Nat × List (Nat × Finset Nat)) :=
  if ci.inlineAsm then some (S0, cache)
  else
    match lookupA cache ci.chash with
    | some fs => some ((if fs = ∅ then S0 else S0 ∪ fs), cache)
    | none => do
        let S ← addrTaken.foldlM
          (fun S f => do
            let b ← considerFunc tc ci f
            pure (if b then insert f.fid S else S)) S0
        pure (S, (ci.chash, S) :: cache)

/-- The constituents of the C10 failing input: an indirect call with no
arguments… -/
def ciOob : CallRec :=
  ⟨false, 100, [], ⟨0, .int 32⟩, 0, ⟨0, .func (.int 32) []⟩, 0⟩

/-- …and an address-taken vararg function with one fixed parameter. -/
def fOob : FuncRec :=
  ⟨7, true, false, [⟨0, .int 32⟩], ⟨0, .int 32⟩, 5, 0⟩

/-- C10: at a call site with zero arguments matched against a vararg
function with one fixed parameter, the argument loop of
`findCalleesWithType` dereferences the caller's argument iterator past
`arg_end()` — an out-of-bounds read (modelled as `none`).  The in-code
comment says only the known arguments are compared, but no bound on the
caller side is checked. -/
theorem findCalleesWithType_oob_read :
    findCalleesWithType tcX [fOob] [] ciOob ∅ = none ∧
    considerFunc tcX ciOob fOob = none := by
  constructor <;> rfl

/-- For non-vararg candidates the arity check does protect the argument
loop: the matcher always completes without an out-of-bounds read. -/
theorem considerFunc_isSome_of_not_vararg (tc : TyCtx) (ci : CallRec)
    (f : FuncRec) (h : f.vararg = false) : (considerFunc tc ci f).isSome := by
  have len : ∀ (ps as : List TyV), ps.length ≤ as.length →
      (matchArgs tc f.module ci.module ps as).isSome := by
    intro ps
    induction ps with
    | nil => intro as _; rfl
    | cons d ps ih =>
        intro as hlen
        cases as with
        | nil => simp at hlen
        | cons a as =>
            simp only [matchArgs]
            split
            · exact ih as (by simpa using hlen)
            · rfl
  unfold considerFunc
  split
  · rfl
  · split
    · rfl
    · split
      · rfl
      · rename_i h1 h2 h3
        have hl : f.params.length = ci.args.length := by
          rw [h] at h1; simpa using h1
        cases hm : matchArgs tc f.module ci.module f.params ci.args with
        | none =>
            have hs := len f.params ci.args (le_of_eq hl)
            rw [hm] at hs; simp at hs
        | some b => cases b <;> simp [hm, Option.bind]

/-! ## Alias-struct-pointer collection (C6) -/

/-- An instruction as `collectAliasStructPtr` sees it: either a cast
instruction (with the id of the cast and of its source value, whether
the source is a call result, and the two static types), or anything
else. -/
inductive AInst : Type where
  | cast (castId fromId : Nat) (fromIsCall : Bool) (fromTy toTy : TyV) : AInst
  | otherI : AInst

/-- The filter of `collectAliasStructPtr`: the cast source is a call
result of type `i8*` and the target type points to a composite. -/
def qualifiesASP (tc : TyCtx) (m : Nat) : AInst → Bool
  | .cast _ _ fromIsCall fromTy toTy =>
      fromIsCall && (fromTy = int8PtrTy tc m) && toTy.ty.isPtr
        && isCompositeType toTy.ty.pointee
  | .otherI => false

/-- The instruction loop of `collectAliasStructPtr`: first qualifying
cast of a source is recorded, a repeated source is marked for erasure. -/
def collectASPGo (tc : TyCtx) (m : Nat) :
    List AInst → List (Nat × Nat) → Finset Nat → List (Nat × Nat) × Finset Nat
  | [], am, er => (am, er)
  | .otherI :: rest, am, er => collectASPGo tc m rest am er
  | .cast cid src isCall fTy tTy :: rest, am, er =>
      if qualifiesASP tc m (.cast cid src isCall fTy tTy) then
        match lookupA am src with
        | some _ => collectASPGo tc m rest am (insert src er)
        | none => collectASPGo tc m rest ((src, cid) :: am) er
      else collectASPGo tc m rest am er

/-- `MLTA::collectAliasStructPtr(F)`: run the loop over the body, then
erase every marked source. -/
def collectAliasStructPtr (tc : TyCtx) (m : Nat) (body : List AInst) :
    List (Nat × Nat) :=
  let r := collectASPGo tc m body [] ∅
  r.1.filter (fun kv => kv.1 ∉ r.2)

/-- The qualifying casts of source `src` in a body, in program order. -/
def qualCasts (tc : TyCtx) (m : Nat) (body : List AInst) (src : Nat) :
    List Nat :=
  body.filterMap fun i =>
    match i with
    | .cast cid s isCall fTy tTy =>
        if s = src ∧ qualifiesASP tc m (.cast cid s isCall fTy tTy) then
          some cid
        else none
    | .otherI => none

theorem lookupA_filter_not_mem (am : List (Nat × Nat)) (er : Finset Nat) (src : Nat) :
    lookupA (am.filter (fun kv => kv.1 ∉ er)) src
      = if src ∈ er then none else lookupA am src := by
  induction am with
  | nil => simp [lookupA]
  | cons kv rest ih =>
      obtain ⟨k, v⟩ := kv
      by_cases hk : k ∈ er
      · have hfk : (decide ((k, v).1 ∉ er)) = false := by simp [hk]
        rw [List.filter_cons, hfk]
        simp only [Bool.false_eq_true, if_false, ih]
        by_cases hsrc : src ∈ er
        · simp [hsrc]
        · have hne : k ≠ src := fun he => hsrc (he ▸ hk)
          simp [hsrc, lookupA, hne]
      · have hfk : (decide ((k, v).1 ∉ er)) = true := by simp [hk]
        rw [List.filter_cons, hfk]
        simp only [if_true]
        by_cases hks : k = src
        · subst hks
          simp [lookupA, hk]
        · simp only [lookupA, if_neg hks, ih]

theorem collectASPGo_spec (tc : TyCtx) (m : Nat) :
    ∀ (body : List AInst) (am : List (Nat × Nat)) (er : Finset Nat) (src : Nat),
      (lookupA (collectASPGo tc m body am er).1 src =
        (match lookupA am src with
         | some v => some v
         | none => (qualCasts tc m body src).head?))
      ∧ (src ∈ (collectASPGo tc m body am er).2 ↔
          (src ∈ er ∨ ((lookupA am src).isSome ∧ qualCasts tc m body src ≠ [])
            ∨ 2 ≤ (qualCasts tc m body src).length)) := by
  intro body
  induction body with
  | nil =>
      intro am er src
      constructor
      · simp only [collectASPGo, qualCasts, List.filterMap_nil]
        cases lookupA am src <;> rfl
      · simp [collectASPGo, qualCasts]
  | cons i rest ih =>
      intro am er src
      cases i with
      | otherI =>
          simpa [collectASPGo, qualCasts, List.filterMap_cons] using ih am er src
      | cast cid' src' isCall fTy tTy =>
          by_cases hq : qualifiesASP tc m (.cast cid' src' isCall fTy tTy) = true
          · by_cases hs : src' = src
            · subst hs
              have hqc : qualCasts tc m (.cast cid' src' isCall fTy tTy :: rest) src'
                  = cid' :: qualCasts tc m rest src' := by
                simp [qualCasts, List.filterMap_cons, hq]
              cases hl : lookupA am src' with
              | some v =>
                  have hgo : collectASPGo tc m
                      (.cast cid' src' isCall fTy tTy :: rest) am er
                      = collectASPGo tc m rest am (insert src' er) := by
                    simp only [collectASPGo, if_pos hq, hl]
                  rw [hgo, hqc]
                  obtain ⟨ih1, ih2⟩ := ih am (insert src' er) src'
                  constructor
                  · rw [ih1, hl]
                  · rw [ih2, hl]
                    simp
              | none =>
                  have hgo : collectASPGo tc m
                      (.cast cid' src' isCall fTy tTy :: rest) am er
                      = collectASPGo tc m rest ((src', cid') :: am) er := by
                    simp only [collectASPGo, if_pos hq, hl]
                  rw [hgo, hqc]
                  obtain ⟨ih1, ih2⟩ := ih ((src', cid') :: am) er src'
                  have hla : lookupA ((src', cid') :: am) src' = some cid' := by
                    simp [lookupA]
                  constructor
                  · rw [ih1, hla]; rfl
                  · rw [ih2, hla]
                    simp only [Option.isSome_some, eq_self_iff_true, true_and,
                      Option.isSome_none, Bool.false_eq_true, false_and,
                      false_or, List.length_cons]
                    constructor
                    · rintro (h | h | h)
                      · exact .inl h
                      · rcases List.exists_cons_of_ne_nil h with ⟨c, cs, hcc⟩
                        right; rw [hcc, List.length_cons]; omega
                      · right; omega
                    · rintro (h | h)
                      · exact .inl h
                      · have h1 : qualCasts tc m rest src' ≠ [] := by
                          intro hnil
                          rw [hnil] at h
                          simp at h
                        exact .inr (.inl h1)
            · have hqc : qualCasts tc m (.cast cid' src' isCall fTy tTy :: rest) src
                  = qualCasts tc m rest src := by
                simp only [qualCasts, List.filterMap_cons]
                rw [if_neg (fun hc => hs hc.1)]
              cases hl : lookupA am src' with
              | some v =>
                  have hgo : collectASPGo tc m
                      (.cast cid' src' isCall fTy tTy :: rest) am er
                      = collectASPGo tc m rest am (insert src' er) := by
                    simp only [collectASPGo, if_pos hq, hl]
                  rw [hgo, hqc]
                  obtain ⟨ih1, ih2⟩ := ih am (insert src' er) src
                  refine ⟨ih1, ?_⟩
                  rw [ih2]
                  have hmem : src ∈ insert src' er ↔ src ∈ er := by
                    rw [Finset.mem_insert]
                    constructor
                    · rintro (h | h)
                      · exact absurd h (fun he => hs he.symm)
                      · exact h
                    · exact Or.inr
                  rw [hmem]
              | none =>
                  have hgo : collectASPGo tc m
                      (.cast cid' src' isCall fTy tTy :: rest) am er
                      = collectASPGo tc m rest ((src', cid') :: am) er := by
                    simp only [collectASPGo, if_pos hq, hl]
                  rw [hgo, hqc]
                  obtain ⟨ih1, ih2⟩ := ih ((src', cid') :: am) er src
                  have hla : lookupA ((src', cid') :: am) src = lookupA am src := by
                    simp [lookupA, hs]
                  refine ⟨?_, ?_⟩
                  · rw [ih1, hla]
                  · rw [ih2, hla]
          · have hqc : qualCasts tc m (.cast cid' src' isCall fTy tTy :: rest) src
                = qualCasts tc m rest src := by
              simp only [qualCasts, List.filterMap_cons]
              rw [if_neg (fun hc => hq hc.2)]
            have hgo : collectASPGo tc m
                (.cast cid' src' isCall fTy tTy :: rest) am er
                = collectASPGo tc m rest am er := by
              simp only [collectASPGo, if_neg hq]
            rw [hgo, hqc]
            exact ih am er src

/-- C6: the per-function alias map binds a source to a cast exactly when
that cast is the *only* qualifying cast of the source in the function;
a source with a second qualifying cast is erased. -/
theorem collectAliasStructPtr_unique (tc : TyCtx) (m : Nat) (body : List AInst)
    (src cid : Nat) :
    lookupA (collectAliasStructPtr tc m body) src = some cid ↔
      qualCasts tc m body src = [cid] := by
  unfold collectAliasStructPtr
  obtain ⟨h1, h2⟩ := collectASPGo_spec tc m body [] ∅ src
  rw [lookupA_filter_not_mem]
  have h1' : lookupA (collectASPGo tc m body [] ∅).1 src
      = (qualCasts tc m body src).head? := by
    rw [h1]; rfl
  have h2' : src ∈ (collectASPGo tc m body [] ∅).2 ↔
      2 ≤ (qualCasts tc m body src).length := by
    rw [h2]; simp [lookupA]
  by_cases hm : src ∈ (collectASPGo tc m body [] ∅).2
  · rw [if_pos hm]
    have hlen := h2'.mp hm
    constructor
    · intro h; cases h
    · intro h; rw [h] at hlen; simp at hlen
  · rw [if_neg hm, h1']
    have hlen : ¬ 2 ≤ (qualCasts tc m body src).length :=
      fun h => hm (h2'.mpr h)
    cases hqc : qualCasts tc m body src with
    | nil => simp
    | cons c cs =>
        cases cs with
        | nil => simp
        | cons c2 cs2 =>
            rw [hqc] at hlen
            simp at hlen

/-! ## Dependent-type closure: `getDependentTypes` (C5)

`typeIdxPropMap` is a finite set of directed edges
`((T, i), (T', j))`, meaning `(T', j) ∈ typeIdxPropMap[T][i]`; it is
represented by its edge list. -/

/-- A `(type-hash, index)` pair (`hashidx_t`); type hashes are the
structural types themselves (spec §4.2). -/
abbrev TIK : Type := Ty × Int

/-- `typeIdxPropMap[k.1][k.2]` as a list of edge targets. -/
def propLookup (pm : List (TIK × TIK)) (k : TIK) : List TIK :=
  (pm.filter (fun e => e.1 = k)).map (fun e => e.2)

/-- All edge targets of the propagation map; together with the start
node these bound the worklist. -/
def propTargets (pm : List (TIK × TIK)) : Finset TIK :=
  (pm.map (fun e => e.2)).toFinset

/-- Pop the worklist until its first unvisited node (the `continue` on
already-visited nodes of the source loop); returns that node and the
remaining queue, or `none` when every queued node is visited. -/
def depSkip (vis : Finset TIK) : List TIK → Option (TIK × List TIK)
  | [] => none
  | ti :: rest => if ti ∈ vis then depSkip vis rest else some (ti, rest)

/-- The worklist loop of `getDependentTypes`: pop a node, skip it if
visited, else follow both its `[i]` edges and its `[-1]` edges,
accumulating every discovered target into the result (`PropSet`) and
pushing it for later processing.  Returns `(PropSet, Visited)`.  The
budget counts processed (unvisited) nodes; every queued node is an edge
target or the start node, so a budget above that count never runs out
(see `depLoop_queued_visited`). -/
def depLoop (pm : List (TIK × TIK)) :
    Nat → List TIK → Finset TIK → Finset TIK → Finset TIK × Finset TIK
  | 0, _, visited, acc => (acc, visited)
  | b + 1, LT, visited, acc =>
    match depSkip visited LT with
    | none => (acc, visited)
    | some (ti, rest) =>
        depLoop pm b
          (rest ++ (propLookup pm ti ++ propLookup pm (ti.1, -1)))
          (insert ti visited)
          (acc ∪ (propLookup pm ti ++ propLookup pm (ti.1, -1)).toFinset)

/-- `MLTA::getDependentTypes(Ty, Idx)`: worklist closure over
`typeIdxPropMap`, starting from `(typeHash Ty, Idx)` and following both
the exact-index edges and the `-1` ("any field") edges of every popped
node.  The budget `|edges| + 2` exceeds the number of distinct
reachable nodes, so the loop always drains its worklist. -/
def getDependentTypes (pm : List (TIK × TIK)) (T : TyV) (i : Int) :
    Finset TIK :=
  (depLoop pm (pm.length + 2) [(T.ty, i)] ∅ ∅).1

/-- One propagation edge as the spec describes it: from `(h, j)` both
the edges stored under `typeidx_prop[h][j]` and those under
`typeidx_prop[h][-1]` are followed. -/
def propStep (pm : List (TIK × TIK)) (a b : TIK) : Prop :=
  b ∈ propLookup pm a ∨ b ∈ propLookup pm (a.1, -1)

theorem depSkip_none (vis : Finset TIK) :
    ∀ LT, depSkip vis LT = none → ∀ x ∈ LT, x ∈ vis := by
  intro LT
  induction LT with
  | nil => intro _ x hx; exact absurd hx (List.not_mem_nil x)
  | cons hd tl ih =>
      intro h x hx
      by_cases hhd : hd ∈ vis
      · rw [depSkip, if_pos hhd] at h
        rcases List.mem_cons.mp hx with rfl | hx'
        · exact hhd
        · exact ih h x hx'
      · rw [depSkip, if_neg hhd] at h
        simp at h

theorem depSkip_some (vis : Finset TIK) :
    ∀ LT ti rest, depSkip vis LT = some (ti, rest) →
      ti ∉ vis ∧ ti ∈ LT ∧ (∀ x ∈ rest, x ∈ LT) ∧
      (∀ x ∈ LT, x ∈ vis ∨ x = ti ∨ x ∈ rest) := by
  intro LT
  induction LT with
  | nil => intro ti rest h; simp [depSkip] at h
  | cons hd tl ih =>
      intro ti rest h
      by_cases hhd : hd ∈ vis
      · rw [depSkip, if_pos hhd] at h
        rcases ih ti rest h with ⟨h1, h2, h3, h4⟩
        refine ⟨h1, List.mem_cons_of_mem _ h2,
          fun x hx => List.mem_cons_of_mem _ (h3 x hx), ?_⟩
        intro x hx
        rcases List.mem_cons.mp hx with rfl | hx'
        · exact Or.inl hhd
        · exact h4 x hx'
      · rw [depSkip, if_neg hhd] at h
        simp only [Option.some_inj, Prod.mk.injEq] at h
        rcases h with ⟨rfl, rfl⟩
        refine ⟨hhd, List.mem_cons_self _ _,
          fun x hx => List.mem_cons_of_mem _ hx, ?_⟩
        intro x hx
        rcases List.mem_cons.mp hx with rfl | hx'
        · exact Or.inr (Or.inl rfl)
        · exact Or.inr (Or.inr hx')

theorem sdiff_insert_card_lt (bound vis : Finset TIK) (ti : TIK)
    (hti : ti ∈ bound) (hnv : ti ∉ vis) :
    (bound \ insert ti vis).card < (bound \ vis).card := by
  apply Finset.card_lt_card
  refine (Finset.ssubset_iff_of_subset
    (Finset.sdiff_subset_sdiff (le_refl _) (Finset.subset_insert _ _))).mpr ?_
  exact ⟨ti, Finset.mem_sdiff.mpr ⟨hti, hnv⟩,
    fun hc => (Finset.mem_sdiff.mp hc).2 (Finset.mem_insert_self _ _)⟩

theorem propLookup_sub_targets (pm : List (TIK × TIK)) (k : TIK) :
    ∀ x ∈ propLookup pm k, x ∈ propTargets pm := by
  intro x hx
  simp only [propLookup, List.mem_map, List.mem_filter] at hx
  rcases hx with ⟨e, ⟨he, _⟩, rfl⟩
  simp only [propTargets, List.mem_toFinset, List.mem_map]
  exact ⟨e, he, rfl⟩

theorem depLoop_visited_mono (pm : List (TIK × TIK)) :
    ∀ b LT vis acc, vis ⊆ (depLoop pm b LT vis acc).2 := by
  intro b
  induction b with
  | zero => intro LT vis acc; exact Finset.Subset.refl _
  | succ b ih =>
      intro LT vis acc
      cases hsk : depSkip vis LT with
      | none => rw [depLoop, hsk]
      | some pr =>
          obtain ⟨ti, rest⟩ := pr
          rw [depLoop, hsk]
          exact (Finset.subset_insert _ _).trans (ih _ _ _)

theorem depLoop_acc_mono (pm : List (TIK × TIK)) :
    ∀ b LT vis acc, acc ⊆ (depLoop pm b LT vis acc).1 := by
  intro b
  induction b with
  | zero => intro LT vis acc; exact Finset.Subset.refl _
  | succ b ih =>
      intro LT vis acc
      cases hsk : depSkip vis LT with
      | none => rw [depLoop, hsk]
      | some pr =>
          obtain ⟨ti, rest⟩ := pr
          rw [depLoop, hsk]
          exact Finset.subset_union_left.trans (ih _ _ _)

theorem depLoop_queued_visited (pm : List (TIK × TIK)) (bound : Finset TIK)
    (hB : propTargets pm ⊆ bound) :
    ∀ b LT vis acc, (∀ x ∈ LT, x ∈ bound) → (bound \ vis).card < b →
      ∀ x ∈ LT, x ∈ (depLoop pm b LT vis acc).2 := by
  intro b
  induction b with
  | zero => intro LT vis acc _ hb; exact absurd hb (Nat.not_lt_zero _)
  | succ b ih =>
      intro LT vis acc hLT hb
      cases hsk : depSkip vis LT with
      | none =>
          intro x hx
          rw [depLoop, hsk]
          exact depSkip_none vis LT hsk x hx
      | some pr =>
          obtain ⟨ti, rest⟩ := pr
          rcases depSkip_some vis LT ti rest hsk with ⟨hnv, hmem, hrest, hcov⟩
          have hLT' : ∀ x ∈ rest ++ (propLookup pm ti ++ propLookup pm (ti.1, -1)),
              x ∈ bound := by
            intro x hx
            rcases List.mem_append.mp hx with hx' | hx'
            · exact hLT x (hrest x hx')
            · rcases List.mem_append.mp hx' with hx'' | hx'' <;>
                exact hB (propLookup_sub_targets pm _ x hx'')
          have hb' : (bound \ insert ti vis).card < b :=
            Nat.lt_of_lt_of_le
              (sdiff_insert_card_lt bound vis ti (hLT ti hmem) hnv)
              (Nat.lt_succ_iff.mp hb)
          intro x hx
          rw [depLoop, hsk]
          rcases hcov x hx with hv | rfl | hr
          · exact depLoop_visited_mono pm b _ _ _
              ((Finset.subset_insert _ _) hv)
          · exact depLoop_visited_mono pm b _ _ _ (Finset.mem_insert_self _ _)
          · exact ih _ _ _ hLT' hb' x (List.mem_append_left _ hr)

theorem depLoop_closed (pm : List (TIK × TIK)) (bound : Finset TIK)
    (hB : propTargets pm ⊆ bound) :
    ∀ b LT vis acc, (∀ x ∈ LT, x ∈ bound) → (bound \ vis).card < b →
      ∀ v, v ∈ (depLoop pm b LT vis acc).2 → v ∉ vis →
      ∀ p, propStep pm v p →
        p ∈ (depLoop pm b LT vis acc).1 ∧
        p ∈ (depLoop pm b LT vis acc).2 := by
  intro b
  induction b with
  | zero => intro LT vis acc _ hb; exact absurd hb (Nat.not_lt_zero _)
  | succ b ih =>
      intro LT vis acc hLT hb v hv hnv p hp
      cases hsk : depSkip vis LT with
      | none =>
          rw [depLoop, hsk] at hv
          exact absurd hv hnv
      | some pr =>
          obtain ⟨ti, rest⟩ := pr
          rcases depSkip_some vis LT ti rest hsk with ⟨hnvti, hmem, hrest, hcov⟩
          have hLT' : ∀ x ∈ rest ++ (propLookup pm ti ++ propLookup pm (ti.1, -1)),
              x ∈ bound := by
            intro x hx
            rcases List.mem_append.mp hx with hx' | hx'
            · exact hLT x (hrest x hx')
            · rcases List.mem_append.mp hx' with hx'' | hx'' <;>
                exact hB (propLookup_sub_targets pm _ x hx'')
          have hb' : (bound \ insert ti vis).card < b :=
            Nat.lt_of_lt_of_le
              (sdiff_insert_card_lt bound vis ti (hLT ti hmem) hnvti)
              (Nat.lt_succ_iff.mp hb)
          rw [depLoop, hsk] at hv ⊢
          by_cases hvt : v = ti
          · subst hvt
            have hp2 : p ∈ propLookup pm v ++ propLookup pm (v.1, -1) :=
              List.mem_append.mpr hp
            constructor
            · exact depLoop_acc_mono pm b _ _ _
                (Finset.mem_union_right _ (List.mem_toFinset.mpr hp2))
            · exact depLoop_queued_visited pm bound hB b _ _ _ hLT' hb' p
                (List.mem_append_right _ hp2)
          · refine ih _ _ _ hLT' hb' v hv ?_ p hp
            intro hc
            rcases Finset.mem_insert.mp hc with h' | h'
            · exact hvt h'
            · exact hnv h'

theorem depLoop_sound (pm : List (TIK × TIK)) (start : TIK) :
    ∀ b LT vis acc,
      (∀ x ∈ LT, Relation.ReflTransGen (propStep pm) start x) →
      (∀ x ∈ acc, Relation.TransGen (propStep pm) start x) →
      ∀ p ∈ (depLoop pm b LT vis acc).1,
        Relation.TransGen (propStep pm) start p := by
  intro b
  induction b with
  | zero => intro LT vis acc _ haccI p hp; exact haccI p hp
  | succ b ih =>
      intro LT vis acc hLTI haccI p hp
      cases hsk : depSkip vis LT with
      | none =>
          rw [depLoop, hsk] at hp
          exact haccI p hp
      | some pr =>
          obtain ⟨ti, rest⟩ := pr
          rcases depSkip_some vis LT ti rest hsk with ⟨_, hmem, hrest, _⟩
          rw [depLoop, hsk] at hp
          refine ih _ _ _ ?_ ?_ p hp
          · intro x hx
            rcases List.mem_append.mp hx with hx' | hx'
            · exact hLTI x (hrest x hx')
            · exact Relation.TransGen.to_reflTransGen
                (Relation.TransGen.tail' (hLTI ti hmem)
                  (List.mem_append.mp hx'))
          · intro x hx
            rcases Finset.mem_union.mp hx with hx' | hx'
            · exact haccI x hx'
            · exact Relation.TransGen.tail' (hLTI ti hmem)
                (List.mem_append.mp (List.mem_toFinset.mp hx'))

theorem depLoop_complete_start (pm : List (TIK × TIK)) (bound : Finset TIK)
    (hB : propTargets pm ⊆ bound) (b : Nat) (start : TIK)
    (hst : start ∈ bound) (hb : (bound \ ∅).card < b) (p : TIK)
    (h : Relation.TransGen (propStep pm) start p) :
    p ∈ (depLoop pm b [start] ∅ ∅).1 ∧ p ∈ (depLoop pm b [start] ∅ ∅).2 := by
  have hLT0 : ∀ x ∈ [start], x ∈ bound := by
    intro x hx; rw [List.mem_singleton.mp hx]; exact hst
  induction h with
  | single hstep =>
      have hq := depLoop_queued_visited pm bound hB b [start] ∅ ∅ hLT0 hb start
        (List.mem_singleton.mpr rfl)
      exact depLoop_closed pm bound hB b [start] ∅ ∅ hLT0 hb start hq
        (Finset.not_mem_empty _) _ hstep
  | tail hq hstep ih =>
      exact depLoop_closed pm bound hB b [start] ∅ ∅ hLT0 hb _ ih.2
        (Finset.not_mem_empty _) _ hstep

/-- C5: `getDependentTypes(T, i)` is exactly the set of
`(type-hash, index)` pairs reachable (in one or more propagation steps)
from `(typeHash T, i)` in the directed graph `typeIdxPropMap`, where
each step follows both the exact-index and the `-1` edges of the
current node. -/
theorem getDependentTypes_eq_reachable (pm : List (TIK × TIK)) (T : TyV)
    (i : Int) (p : TIK) :
    p ∈ getDependentTypes pm T i ↔
      Relation.TransGen (propStep pm) (T.ty, i) p := by
  unfold getDependentTypes
  constructor
  · intro hp
    refine depLoop_sound pm (T.ty, i) _ _ _ _ ?_ ?_ p hp
    · intro x hx
      rw [List.mem_singleton.mp hx]
    · exact fun x hx => absurd hx (Finset.not_mem_empty _)
  · intro h
    have hcard : ((insert ((T.ty, i) : TIK) (propTargets pm)) \ ∅).card <
        pm.length + 2 := by
      rw [Finset.sdiff_empty]
      refine Nat.lt_of_le_of_lt (Finset.card_insert_le _ _) ?_
      have hle : (propTargets pm).card ≤ pm.length := by
        simpa [propTargets] using (pm.map (fun e => e.2)).toFinset_card_le
      omega
    exact (depLoop_complete_start pm (insert (T.ty, i) (propTargets pm))
      (Finset.subset_insert _ _) (pm.length + 2) (T.ty, i)
      (Finset.mem_insert_self _ _) hcard p h).1

/-! ## The IR value graph and the layer walker

IR values are ids into a finite graph (`id < N`); each node records
the dispatch kind (with operand ids), the value's static type, whether
it is an `Instruction`, and whether some `StoreInst` uses it as the
pointer operand (the only user property `getBaseTypeChain` consults).
`GEP` nodes also record the destination types of their
`BitCastOperator` users, the only user property `getGEPLayerTypes`
consults. -/

/-- Dispatch kinds of IR values. -/
inductive VKind : Type where
  | gep (po : Nat) (srcTy : TyV) (idxs : List (Option Int)) (bcUsers : List TyV)
  | load (po : Nat)
  | bitcast (op : Nat)
  | phi (incoming : List Nat)
  | select (tv fv : Nat)
  | unary (op : Nat)
  | arg
  | func (f : Nat)
  | storeN (po vo : Nat)
  | ptrToInt (op : Nat)
  | cagg (ops : List Nat)
  | gvar (ops : List Nat)
  | nullPtr
  | cdata
  | otherV

/-- `isa<Argument>`. -/
def VKind.isArg : VKind → Bool
  | .arg => true
  | _ => false

/-- `isa<ConstantAggregate>`. -/
def VKind.isCagg : VKind → Bool
  | .cagg _ => true
  | _ => false

/-- The operand ids of a node, for well-formedness. -/
def VKind.opIds : VKind → List Nat
  | .gep po _ _ _ => [po]
  | .load po => [po]
  | .bitcast op => [op]
  | .phi inc => inc
  | .select tv fv => [tv, fv]
  | .unary op => [op]
  | .storeN po vo => [po, vo]
  | .ptrToInt op => [op]
  | .cagg ops => ops
  | .gvar ops => ops
  | _ => []

/-- An IR value node. -/
structure VNode : Type where
  kind : VKind
  ty : TyV
  isInst : Bool
  storedTo : Bool

/-- The ambient environment of one analysis function: the value graph,
the per-function alias map (`AliasStructPtrMap[F]`), the data layout's
offset-to-indices query (IR facade), the intrinsic table and the
`stripPointerCasts` facade, plus the two build-time flags
`MLTA_FIELD_INSENSITIVE` and `SOUND_MODE`. -/
structure IREnv : Type where
  N : Nat
  node : Nat → VNode
  aliasPtr : Nat → Option Nat
  gepOffsetIndices : Ty → Nat → List Int
  isIntrinsic : Nat → Bool
  stripPC : Nat → Nat
  fieldInsensitive : Bool
  sound : Bool

/-- Operands stay inside the graph. -/
def WFEnv (env : IREnv) : Prop :=
  ∀ v < env.N, ∀ o ∈ (env.node v).kind.opIds, o < env.N

instance (env : IREnv) : Decidable (WFEnv env) := by
  unfold WFEnv; infer_instance

/-- `MLTA::recoverBaseType`: the alias map applies to instructions
only. -/
def recoverBaseType (env : IREnv) (v : Nat) : Option Nat :=
  if (env.node v).isInst then env.aliasPtr v else none

/-- `getElementType` of a composite at an index.  An out-of-range or
non-constant index on a struct, or a non-composite carrier, violates
the `assert(SubTy)` in `getGEPLayerTypes` (an IR-invariant failure per
spec §7); it is modelled as an unspecified type. -/
def elemTyD : TyV → Int → TyV
  | ⟨c, .strct _ es⟩, i =>
      match i with
      | .ofNat n => ⟨c, es.getD n (.other 0)⟩
      | _ => ⟨c, .other 0⟩
  | ⟨c, .arr e _⟩, _ => ⟨c, e⟩
  | ⟨c, .vec e _⟩, _ => ⟨c, e⟩
  | ⟨c, _⟩, _ => ⟨c, .other 0⟩

/-- The index walk of `getGEPLayerTypes` (from position 1 onward):
prepend `(ETy, idx)` — `(ETy, 0)` in field-insensitive mode — and
descend into the element type. -/
def gepWalk (env : IREnv) : TyV → List Int → List (TyV × Int) → TyV × List (TyV × Int)
  | ETy, [], acc => (ETy, acc)
  | ETy, idx :: rest, acc =>
      gepWalk env (elemTyD ETy idx) rest
        ((ETy, if env.fieldInsensitive then 0 else idx) :: acc)

/-- The first GEP index when it is a constant different from zero
(`ConstI && ConstI->getSExtValue() != 0`). -/
def gepFirstConst (idxs : List (Option Int)) : Option Int :=
  match idxs.head? with
  | some (some c) => if c = 0 then none else some c
  | _ => none

/-- The alias-recovered source type: when the first index is a nonzero
constant and the pointer operand has an alias-recovered base, the GEP is
reinterpreted at the recovered pointee. -/
def gepSrcTy (env : IREnv) (po : Nat) (ETy0 : TyV)
    (idxs : List (Option Int)) : TyV :=
  match gepFirstConst idxs, recoverBaseType env po with
  | some _, some bv => ⟨(env.node bv).ty.ctx, (env.node bv).ty.ty.pointee⟩
  | _, _ => ETy0

/-- The data-layout indices-for-offset conversion of the recovered
access (empty otherwise). -/
def gepRecIndices (env : IREnv) (po : Nat) (idxs : List (Option Int)) :
    List Int :=
  match gepFirstConst idxs, recoverBaseType env po with
  | some c, some bv =>
      env.gepOffsetIndices (env.node bv).ty.ty.pointee c.toNat
  | _, _ => []

/-- The index vector actually walked: the recovered indices, or the raw
indices with `-1` for non-constants. -/
def gepIndices (env : IREnv) (po : Nat) (idxs : List (Option Int)) :
    List Int :=
  if gepRecIndices env po idxs = [] then idxs.map (fun o => o.getD (-1))
  else gepRecIndices env po idxs

/-- The compiler-optimized field-0 heuristic: when the final element
type is a non-empty struct and some bitcast user of the GEP points to
its first field's type, prepend `(ETy, 0)`. -/
def gepFinal (env : IREnv) (walked : TyV × List (TyV × Int))
    (bcUsers : List TyV) : List (TyV × Int) :=
  match walked.1.ty with
  | .strct _ (t0 :: _) =>
      if bcUsers.any (fun u =>
          u.ty.isPtr && decide ((⟨u.ctx, u.ty.pointee⟩ : TyV)
            = ⟨walked.1.ctx, t0⟩)) then
        (walked.1, 0) :: walked.2
      else walked.2
  | _ => walked.2

/-- `MLTA::getGEPLayerTypes`: interpret a GEP.  A non-zero constant
first index triggers alias recovery (reinterpreting the source type and
converting the byte offset via the data layout) or, failing that with a
struct source type and a bitcast user, the sound-mode bail-out.  Then
walk the indices from position 1, apply the field-0 heuristic, and
append to `TyList`. -/
def getGEPLayerTypes (env : IREnv) (po : Nat) (ETy0 : TyV)
    (idxs : List (Option Int)) (bcUsers : List TyV)
    (tyList : List (TyV × Int)) : Bool × List (TyV × Int) :=
  if (gepFirstConst idxs).isSome ∧ recoverBaseType env po = none
      ∧ ETy0.ty.isStruct ∧ bcUsers ≠ [] ∧ env.sound then
    (false, tyList)
  else
    if gepFinal env
        (gepWalk env (gepSrcTy env po ETy0 idxs)
          ((gepIndices env po idxs).drop 1) []) bcUsers ≠ [] then
      (true, tyList ++ gepFinal env
        (gepWalk env (gepSrcTy env po ETy0 idxs)
          ((gepIndices env po idxs).drop 1) []) bcUsers)
    else (false, tyList)

/-- The out-parameters of `nextLayerBaseType`: its return flag,
`TyList`, `NextV` and `Visited`. -/
structure WalkOut : Type where
  ret : Bool
  tyList : List (TyV × Int)
  nextV : Option Nat
  visited : Finset Nat

/-- The PHI loop of `nextLayerBaseType`, parameterised by the walk one
fuel level down: each incoming value is tried on a copy of
`TyList`/`Visited`; the loop breaks on the first branch that extends
`TyList`, and the last attempt's state is kept otherwise.  With no
incoming values the local copies — empty — are kept. -/
def phiLoop (rec : Nat → List (TyV × Int) → Finset Nat → Option WalkOut) :
    List Nat → List (TyV × Int) → Option Nat → Finset Nat → Option WalkOut
  | [], _, nv, _ => some ⟨false, [], nv, ∅⟩
  | [iv], tyList, _, vis => rec iv tyList vis
  | iv :: iv2 :: rest, tyList, nv, vis => do
      let r ← rec iv tyList vis
      if tyList.length < r.tyList.length then some r
      else phiLoop rec (iv2 :: rest) tyList nv vis

/-- `MLTA::nextLayerBaseType(V, TyList, NextV, Visited)`, with fuel for
the recursion (the visited set bounds it; see the termination
theorems).  `none` means the fuel ran out. -/
def nextLayerBaseTypeF (env : IREnv) : Nat → Option Nat → List (TyV × Int) →
    Option Nat → Finset Nat → Option WalkOut
  | 0, _, _, _, _ => none
  | _ + 1, none, tyList, _, vis => some ⟨false, tyList, none, vis⟩
  | fuel + 1, some v, tyList, nv, vis =>
    if (env.node v).kind.isArg then some ⟨false, tyList, some v, vis⟩
    else if v ∈ vis then some ⟨false, tyList, some v, vis⟩
    else
      let vis' := insert v vis
      match (env.node v).kind with
      | .gep po srcTy idxs bc =>
          let r := getGEPLayerTypes env po srcTy idxs bc tyList
          if r.1 then some ⟨true, r.2, some po, vis'⟩
          else some ⟨false, r.2, none, vis'⟩
      | .load po => nextLayerBaseTypeF env fuel (some po) tyList (some po) vis'
      | .bitcast op => nextLayerBaseTypeF env fuel (some op) tyList (some op) vis'
      | .phi inc =>
          phiLoop
            (fun iv tl vs => nextLayerBaseTypeF env fuel (some iv) tl (some iv) vs)
            inc tyList nv vis'
      | .select tv _ => nextLayerBaseTypeF env fuel (some tv) tyList (some tv) vis'
      | .unary op => nextLayerBaseTypeF env fuel (some op) tyList (some op) vis'
      | _ => some ⟨false, tyList, none, vis'⟩

/-- The PHI loop at the fuel level the `phi` case of
`nextLayerBaseTypeF` uses (the form the lemmas quantify over). -/
def phiWalkF (env : IREnv) (fuel : Nat) :
    List Nat → List (TyV × Int) → Option Nat → Finset Nat → Option WalkOut :=
  phiLoop
    (fun iv tl vs => nextLayerBaseTypeF env fuel (some iv) tl (some iv) vs)

mutual

/-- `MLTA::getBaseType(V, Visited)`: the single-layer base type, with
fuel for the visited-set-bounded recursion.  Returns the result and the
final visited set (threaded by reference in the source). -/
def getBaseTypeF (env : IREnv) : Nat → Option Nat → Finset Nat →
    Option (Option TyV × Finset Nat)
  | 0, _, _ => none
  | _ + 1, none, vis => some (none, vis)
  | fuel + 1, some v, vis =>
    if v ∈ vis then some (none, vis)
    else
      let vis' := insert v vis
      let n := env.node v
      if isCompositeType n.ty.ty then some (some n.ty, vis')
      else
        let viaPtr : Option TyV :=
          if n.ty.ty.isPtr then
            if isCompositeType n.ty.ty.pointee then
              some ⟨n.ty.ctx, n.ty.ty.pointee⟩
            else
              match recoverBaseType env v with
              | some bv =>
                  some ⟨(env.node bv).ty.ctx, (env.node bv).ty.ty.pointee⟩
              | none => none
          else none
        match viaPtr with
        | some t => some (some t, vis')
        | none =>
            match n.kind with
            | .bitcast op => getBaseTypeF env fuel (some op) vis'
            | .select tv _ => getBaseTypeF env fuel (some tv) vis'
            | .phi inc => getPhiBaseTypeF env fuel inc vis'
            | .load po => getBaseTypeF env fuel (some po) vis'
            | _ => some (none, vis')
termination_by fuel _ _ => (fuel, 0)

/-- `MLTA::_getPhiBaseType`: try the incoming values in order, sharing
one visited set, and keep the first non-null base type. -/
def getPhiBaseTypeF (env : IREnv) : Nat → List Nat → Finset Nat →
    Option (Option TyV × Finset Nat)
  | _, [], vis => some (none, vis)
  | fuel, iv :: rest, vis => do
      let r ← getBaseTypeF env fuel (some iv) vis
      match r.1 with
      | some t => some (some t, r.2)
      | none => getPhiBaseTypeF env fuel rest r.2
termination_by fuel l _ => (fuel, l.length + 1)

end

/-- The `while (nextLayerBaseType(CV, TyList, NextV, Visited)) CV = NextV`
loop of `getBaseTypeChain`, with its own iteration fuel (the shared
visited set bounds it). -/
def chainLoopF (env : IREnv) (wfuel : Nat) : Nat → Option Nat →
    List (TyV × Int) → Option Nat → Finset Nat →
    Option (List (TyV × Int) × Option Nat × Finset Nat)
  | 0, _, _, _, _ => none
  | lf + 1, cv, tyList, nv, vis => do
      let r ← nextLayerBaseTypeF env wfuel cv tyList nv vis
      if r.ret then chainLoopF env wfuel lf r.nextV r.tyList r.nextV r.visited
      else some (r.tyList, r.nextV, r.visited)

/-- `MLTA::getBaseTypeChain(Chain, V, Complete, DL)` (pure part): the
chain is the single-layer base type (at index 0) followed by the
accumulated walker layers; the chain is complete unless the walk ended
at null, at a pointer-typed `Argument`, or at a value stored to
memory. -/
def getBaseTypeChainF (env : IREnv) (fuel : Nat) (v : Nat) :
    Option (List (TyV × Int) × Bool) := do
  let b ← getBaseTypeF env fuel (some v) ∅
  let chain0 : List (TyV × Int) :=
    match b.1 with
    | some t => [(t, 0)]
    | none => []
  let l ← chainLoopF env fuel fuel (some v) [] none ∅
  let chain := chain0 ++ l.1
  let complete : Bool :=
    match l.2.1 with
    | none => false
    | some w =>
        if (env.node w).kind.isArg && (env.node w).ty.ty.isPtr then false
        else !(env.node w).storedTo
  some (chain, complete)

/-- A `typeCapSet` member: the set holds `typeHash` values of types and
`funcHash` values of functions (both `size_t` in the source; the hashes
are injective by spec §4.2, so the two families are modelled as
disjoint). -/
inductive HKey : Type where
  | tyH (t : Ty)
  | funcH (f : Nat)
  deriving DecidableEq

/-- The cap insertion performed at the end of `getBaseTypeChain`: a
non-empty incomplete chain caps its last type. -/
def chainCapIns (chain : List (TyV × Int)) (complete : Bool) : Option HKey :=
  if complete then none
  else
    match chain.getLast? with
    | some l => some (.tyH l.1.ty)
    | none => none

/-- The bitcast-stripping loop of `MLTA::getBaseFunction`. -/
def gbfLoop (env : IREnv) : Nat → Nat → Option Nat
  | 0, _ => none
  | fuel + 1, cv =>
    match (env.node cv).kind with
    | .bitcast o =>
        match (env.node o).kind with
        | .func f => if env.isIntrinsic f then gbfLoop env fuel o else some f
        | _ => gbfLoop env fuel o
    | _ => none

/-- `MLTA::getBaseFunction(V)`: a non-intrinsic function, possibly
behind bitcasts. -/
def getBaseFunction (env : IREnv) (fuel : Nat) (v : Nat) : Option Nat :=
  match (env.node v).kind with
  | .func f => if env.isIntrinsic f then gbfLoop env fuel v else some f
  | _ => gbfLoop env fuel v

/-! ## Termination of the layer walk (C9)

The visited sets bound every recursion: each recursive call inserts a
fresh graph id, so the number of ids not yet visited — at most `N` —
is a strict measure.  The fueled functions are therefore total once the
fuel exceeds that measure; `N + 1` always suffices. -/

/-- The termination measure: graph ids not yet visited. -/
def unvis (env : IREnv) (vis : Finset Nat) : Nat :=
  (Finset.range env.N \ vis).card

/-- A nullable id that stays inside the graph. -/
def okId (env : IREnv) : Option Nat → Prop
  | none => True
  | some v => v < env.N

theorem unvis_insert_lt (env : IREnv) (vis : Finset Nat) (v : Nat)
    (hv : v < env.N) (hnv : v ∉ vis) :
    unvis env (insert v vis) < unvis env vis := by
  apply Finset.card_lt_card
  refine (Finset.ssubset_iff_of_subset
    (Finset.sdiff_subset_sdiff (le_refl _) (Finset.subset_insert _ _))).mpr ?_
  exact ⟨v, Finset.mem_sdiff.mpr ⟨Finset.mem_range.mpr hv, hnv⟩,
    fun hc => (Finset.mem_sdiff.mp hc).2 (Finset.mem_insert_self _ _)⟩

theorem unvis_mono (env : IREnv) {vis vis' : Finset Nat} (h : vis ⊆ vis') :
    unvis env vis' ≤ unvis env vis :=
  Finset.card_le_card (Finset.sdiff_subset_sdiff (le_refl _) h)

theorem getPhiBaseTypeF_vis_mono_of (env : IREnv) (fuel : Nat)
    (hA : ∀ ov vis r, getBaseTypeF env fuel ov vis = some r → vis ⊆ r.2) :
    ∀ l vis r, getPhiBaseTypeF env fuel l vis = some r → vis ⊆ r.2 := by
  intro l
  induction l with
  | nil =>
      intro vis r h
      simp only [getPhiBaseTypeF, Option.some_inj] at h
      rw [← h]
  | cons iv rest ih =>
      intro vis r h
      simp only [getPhiBaseTypeF] at h
      cases hr : getBaseTypeF env fuel (some iv) vis with
      | none => rw [hr] at h; simp at h
      | some r1 =>
          rw [hr] at h
          simp only [Option.bind_eq_bind, Option.some_bind] at h
          cases hr1 : r1.1 with
          | some t =>
              rw [hr1] at h
              simp only [Option.some_inj] at h
              have hm := hA _ _ _ hr
              rw [← h]
              exact hm
          | none =>
              rw [hr1] at h
              exact (hA _ _ _ hr).trans (ih _ _ h)

theorem getBaseTypeF_vis_mono (env : IREnv) : ∀ fuel ov vis r,
    getBaseTypeF env fuel ov vis = some r → vis ⊆ r.2 := by
  intro fuel
  induction fuel with
  | zero => intro ov vis r h; simp [getBaseTypeF] at h
  | succ fuel ih =>
      have hphi := getPhiBaseTypeF_vis_mono_of env fuel ih
      intro ov vis r h
      match ov with
      | none =>
          simp only [getBaseTypeF, Option.some_inj] at h
          rw [← h]
      | some v =>
          simp only [getBaseTypeF] at h
          by_cases hv : v ∈ vis
          · rw [if_pos hv] at h
            simp only [Option.some_inj] at h
            rw [← h]
          · rw [if_neg hv] at h
            have hsub : vis ⊆ insert v vis := Finset.subset_insert _ _
            split at h
            · simp only [Option.some_inj] at h
              rw [← h]; exact hsub
            · split at h
              · simp only [Option.some_inj] at h
                rw [← h]; exact hsub
              · split at h
                · exact hsub.trans (ih _ _ _ h)
                · exact hsub.trans (ih _ _ _ h)
                · exact hsub.trans (hphi _ _ _ h)
                · exact hsub.trans (ih _ _ _ h)
                · simp only [Option.some_inj] at h
                  rw [← h]; exact hsub

theorem getPhiBaseTypeF_isSome_of (env : IREnv) (fuel : Nat)
    (hA : ∀ ov vis, okId env ov → unvis env vis < fuel →
      (getBaseTypeF env fuel ov vis).isSome) :
    ∀ l vis, (∀ x ∈ l, x < env.N) → unvis env vis < fuel →
      (getPhiBaseTypeF env fuel l vis).isSome := by
  intro l
  induction l with
  | nil => intro vis _ _; simp [getPhiBaseTypeF]
  | cons iv rest ih =>
      intro vis hl hu
      simp only [getPhiBaseTypeF]
      cases hr : getBaseTypeF env fuel (some iv) vis with
      | none =>
          have hs := hA (some iv) vis (hl iv (List.mem_cons_self _ _)) hu
          rw [hr] at hs; simp at hs
      | some r1 =>
          simp only [Option.bind_eq_bind, Option.some_bind]
          cases r1.1 with
          | some t => rfl
          | none =>
              have hsub := getBaseTypeF_vis_mono env fuel _ _ _ hr
              exact ih r1.2 (fun x hx => hl x (List.mem_cons_of_mem _ hx))
                (lt_of_le_of_lt (unvis_mono env hsub) hu)

theorem getBaseTypeF_isSome (env : IREnv) (hwf : WFEnv env) : ∀ fuel ov vis,
    okId env ov → unvis env vis < fuel →
    (getBaseTypeF env fuel ov vis).isSome := by
  intro fuel
  induction fuel with
  | zero => intro ov vis _ hu; exact absurd hu (Nat.not_lt_zero _)
  | succ fuel ih =>
      intro ov vis hok hu
      match ov with
      | none => simp [getBaseTypeF]
      | some v =>
          simp only [getBaseTypeF]
          by_cases hv : v ∈ vis
          · rw [if_pos hv]; rfl
          · rw [if_neg hv]
            have hvN : v < env.N := hok
            have hu' : unvis env (insert v vis) < fuel :=
              Nat.lt_of_lt_of_le (unvis_insert_lt env vis v hvN hv)
                (Nat.lt_succ_iff.mp hu)
            have hops : ∀ o ∈ (env.node v).kind.opIds, o < env.N :=
              hwf v hvN
            split
            · rfl
            · split
              · rfl
              · split
                · rename_i op hop
                  exact ih _ _ (hops op (by rw [hop]; simp [VKind.opIds])) hu'
                · rename_i tv fv hop
                  exact ih _ _ (hops tv (by rw [hop]; simp [VKind.opIds])) hu'
                · rename_i inc hop
                  exact getPhiBaseTypeF_isSome_of env fuel ih
                    inc _ (fun x hx => hops x
                      (by rw [hop]; simpa [VKind.opIds] using hx)) hu'
                · rename_i po hop
                  exact ih _ _ (hops po (by rw [hop]; simp [VKind.opIds])) hu'
                · rfl

theorem phiWalkF_visited_of (env : IREnv) (fuel : Nat)
    (hW : ∀ cv tyList nv vis r,
      nextLayerBaseTypeF env fuel cv tyList nv vis = some r →
      r.ret = true → vis ⊆ r.visited) :
    ∀ l tyList nv vis r, phiWalkF env fuel l tyList nv vis = some r →
      r.ret = true → vis ⊆ r.visited := by
  intro l
  induction l with
  | nil =>
      intro tyList nv vis r h hr
      simp only [phiWalkF, phiLoop, Option.some_inj] at h
      rw [← h] at hr
      simp at hr
  | cons iv rest ih =>
      intro tyList nv vis r h hr
      cases rest with
      | nil =>
          simp only [phiWalkF, phiLoop] at h
          exact hW _ _ _ _ _ h hr
      | cons iv2 rest2 =>
          simp only [phiWalkF, phiLoop] at h
          cases hr1 : nextLayerBaseTypeF env fuel (some iv) tyList (some iv) vis with
          | none => rw [hr1] at h; simp at h
          | some r1 =>
              rw [hr1] at h
              simp only [Option.bind_eq_bind, Option.some_bind] at h
              split at h
              · simp only [Option.some_inj] at h
                rw [← h] at hr ⊢
                exact hW _ _ _ _ _ hr1 hr
              · exact ih _ _ _ _ h hr

theorem nextLayerBaseTypeF_visited (env : IREnv) : ∀ fuel cv tyList nv vis r,
    nextLayerBaseTypeF env fuel cv tyList nv vis = some r → r.ret = true →
    ∃ v, cv = some v ∧ v ∉ vis ∧ insert v vis ⊆ r.visited := by
  intro fuel
  induction fuel with
  | zero => intro cv tyList nv vis r h; simp [nextLayerBaseTypeF] at h
  | succ fuel ih =>
      have hW : ∀ cv tyList nv vis r,
          nextLayerBaseTypeF env fuel cv tyList nv vis = some r →
          r.ret = true → vis ⊆ r.visited := by
        intro cv tyList nv vis r h hr
        rcases ih cv tyList nv vis r h hr with ⟨v, _, _, hsub⟩
        exact (Finset.subset_insert _ _).trans hsub
      have hphi := phiWalkF_visited_of env fuel hW
      intro cv tyList nv vis r h hr
      match cv with
      | none =>
          simp only [nextLayerBaseTypeF, Option.some_inj] at h
          rw [← h] at hr; simp at hr
      | some v =>
          refine ⟨v, rfl, ?_, ?_⟩ <;> simp only [nextLayerBaseTypeF] at h
          · by_cases ha : (env.node v).kind.isArg
            · rw [if_pos ha] at h
              simp only [Option.some_inj] at h
              rw [← h] at hr; simp at hr
            · rw [if_neg ha] at h
              intro hv
              rw [if_pos hv] at h
              simp only [Option.some_inj] at h
              rw [← h] at hr; simp at hr
          · by_cases ha : (env.node v).kind.isArg
            · rw [if_pos ha] at h
              simp only [Option.some_inj] at h
              rw [← h] at hr; simp at hr
            · rw [if_neg ha] at h
              by_cases hv : v ∈ vis
              · rw [if_pos hv] at h
                simp only [Option.some_inj] at h
                rw [← h] at hr; simp at hr
              · rw [if_neg hv] at h
                split at h
                · split at h
                  · simp only [Option.some_inj] at h
                    rw [← h]
                  · simp only [Option.some_inj] at h
                    rw [← h] at hr; simp at hr
                · rcases ih _ _ _ _ _ h hr with ⟨w, _, _, hs⟩
                  exact (Finset.subset_insert _ _).trans hs
                · rcases ih _ _ _ _ _ h hr with ⟨w, _, _, hs⟩
                  exact (Finset.subset_insert _ _).trans hs
                · exact hphi _ _ _ _ _ h hr
                · rcases ih _ _ _ _ _ h hr with ⟨w, _, _, hs⟩
                  exact (Finset.subset_insert _ _).trans hs
                · rcases ih _ _ _ _ _ h hr with ⟨w, _, _, hs⟩
                  exact (Finset.subset_insert _ _).trans hs
                · simp only [Option.some_inj] at h
                  rw [← h] at hr; simp at hr

theorem phiWalkF_nextV_of (env : IREnv) (fuel : Nat)
    (hW : ∀ cv tyList nv vis r, okId env cv → okId env nv →
      nextLayerBaseTypeF env fuel cv tyList nv vis = some r →
      okId env r.nextV) :
    ∀ l tyList nv vis r, (∀ x ∈ l, x < env.N) → okId env nv →
      phiWalkF env fuel l tyList nv vis = some r → okId env r.nextV := by
  intro l
  induction l with
  | nil =>
      intro tyList nv vis r _ hnv h
      simp only [phiWalkF, phiLoop, Option.some_inj] at h
      rw [← h]
      exact hnv
  | cons iv rest ih =>
      intro tyList nv vis r hl hnv h
      cases rest with
      | nil =>
          simp only [phiWalkF, phiLoop] at h
          exact hW _ _ _ _ _
            (show okId env (some iv) from hl iv (List.mem_cons_self _ _))
            (show okId env (some iv) from hl iv (List.mem_cons_self _ _)) h
      | cons iv2 rest2 =>
          simp only [phiWalkF, phiLoop] at h
          cases hr1 : nextLayerBaseTypeF env fuel (some iv) tyList (some iv) vis with
          | none => rw [hr1] at h; simp at h
          | some r1 =>
              rw [hr1] at h
              simp only [Option.bind_eq_bind, Option.some_bind] at h
              split at h
              · simp only [Option.some_inj] at h
                rw [← h]
                exact hW _ _ _ _ _
                  (show okId env (some iv) from hl iv (List.mem_cons_self _ _))
                  (show okId env (some iv) from hl iv (List.mem_cons_self _ _)) hr1
              · exact ih _ _ _ _ (fun x hx => hl x (List.mem_cons_of_mem _ hx))
                  hnv h

theorem nextLayerBaseTypeF_nextV (env : IREnv) (hwf : WFEnv env) :
    ∀ fuel cv tyList nv vis r, okId env cv → okId env nv →
      nextLayerBaseTypeF env fuel cv tyList nv vis = some r →
      okId env r.nextV := by
  intro fuel
  induction fuel with
  | zero => intro cv tyList nv vis r _ _ h; simp [nextLayerBaseTypeF] at h
  | succ fuel ih =>
      have hphi := phiWalkF_nextV_of env fuel
        (fun cv tyList nv vis r => ih cv tyList nv vis r)
      intro cv tyList nv vis r hcv hnv h
      match cv with
      | none =>
          simp only [nextLayerBaseTypeF, Option.some_inj] at h
          rw [← h]; trivial
      | some v =>
          have hvN : v < env.N := hcv
          have hops : ∀ o ∈ (env.node v).kind.opIds, o < env.N := hwf v hvN
          simp only [nextLayerBaseTypeF] at h
          by_cases ha : (env.node v).kind.isArg
          · rw [if_pos ha] at h
            simp only [Option.some_inj] at h
            rw [← h]; exact hvN
          · rw [if_neg ha] at h
            by_cases hv : v ∈ vis
            · rw [if_pos hv] at h
              simp only [Option.some_inj] at h
              rw [← h]; exact hvN
            · rw [if_neg hv] at h
              split at h
              · rename_i po srcTy idxs bc heq
                split at h <;> simp only [Option.some_inj] at h <;> rw [← h]
                · exact hops po (by rw [heq]; simp [VKind.opIds])
                · trivial
              · rename_i po heq
                exact ih _ _ _ _ _
                  (show okId env (some po) from hops po (by rw [heq]; simp [VKind.opIds]))
                  (show okId env (some po) from hops po (by rw [heq]; simp [VKind.opIds])) h
              · rename_i op heq
                exact ih _ _ _ _ _
                  (show okId env (some op) from hops op (by rw [heq]; simp [VKind.opIds]))
                  (show okId env (some op) from hops op (by rw [heq]; simp [VKind.opIds])) h
              · rename_i inc heq
                exact hphi _ _ _ _ _
                  (fun x hx => hops x (by rw [heq]; simpa [VKind.opIds] using hx))
                  hnv h
              · rename_i tv fv heq
                exact ih _ _ _ _ _
                  (show okId env (some tv) from hops tv (by rw [heq]; simp [VKind.opIds]))
                  (show okId env (some tv) from hops tv (by rw [heq]; simp [VKind.opIds])) h
              · rename_i op heq
                exact ih _ _ _ _ _
                  (show okId env (some op) from hops op (by rw [heq]; simp [VKind.opIds]))
                  (show okId env (some op) from hops op (by rw [heq]; simp [VKind.opIds])) h
              · simp only [Option.some_inj] at h
                rw [← h]; trivial

theorem phiWalkF_isSome_of (env : IREnv) (fuel : Nat)
    (hA : ∀ cv tyList nv vis, okId env cv → unvis env vis < fuel →
      (nextLayerBaseTypeF env fuel cv tyList nv vis).isSome) :
    ∀ l tyList nv vis, (∀ x ∈ l, x < env.N) → unvis env vis < fuel →
      (phiWalkF env fuel l tyList nv vis).isSome := by
  intro l
  induction l with
  | nil => intro tyList nv vis _ _; simp [phiWalkF, phiLoop]
  | cons iv rest ih =>
      intro tyList nv vis hl hu
      cases rest with
      | nil =>
          simp only [phiWalkF, phiLoop]
          exact hA _ _ _ _ (hl iv (List.mem_cons_self _ _)) hu
      | cons iv2 rest2 =>
          simp only [phiWalkF, phiLoop]
          cases hr1 : nextLayerBaseTypeF env fuel (some iv) tyList (some iv) vis with
          | none =>
              have hs := hA (some iv) tyList (some iv) vis
                (hl iv (List.mem_cons_self _ _)) hu
              rw [hr1] at hs; simp at hs
          | some r1 =>
              simp only [Option.bind_eq_bind, Option.some_bind]
              split
              · rfl
              · exact ih _ _ _ (fun x hx => hl x (List.mem_cons_of_mem _ hx)) hu

theorem nextLayerBaseTypeF_isSome (env : IREnv) (hwf : WFEnv env) :
    ∀ fuel cv tyList nv vis, okId env cv → unvis env vis < fuel →
      (nextLayerBaseTypeF env fuel cv tyList nv vis).isSome := by
  intro fuel
  induction fuel with
  | zero => intro cv tyList nv vis _ hu; exact absurd hu (Nat.not_lt_zero _)
  | succ fuel ih =>
      have hphi := phiWalkF_isSome_of env fuel
        (fun cv tyList nv vis => ih cv tyList nv vis)
      intro cv tyList nv vis hcv hu
      match cv with
      | none => simp [nextLayerBaseTypeF]
      | some v =>
          have hvN : v < env.N := hcv
          have hops : ∀ o ∈ (env.node v).kind.opIds, o < env.N := hwf v hvN
          simp only [nextLayerBaseTypeF]
          by_cases ha : (env.node v).kind.isArg
          · rw [if_pos ha]; rfl
          · rw [if_neg ha]
            by_cases hv : v ∈ vis
            · rw [if_pos hv]; rfl
            · rw [if_neg hv]
              have hu' : unvis env (insert v vis) < fuel :=
                Nat.lt_of_lt_of_le (unvis_insert_lt env vis v hvN hv)
                  (Nat.lt_succ_iff.mp hu)
              split
              · split <;> rfl
              · rename_i po heq
                exact ih _ _ _ _ (hops po (by rw [heq]; simp [VKind.opIds])) hu'
              · rename_i op heq
                exact ih _ _ _ _ (hops op (by rw [heq]; simp [VKind.opIds])) hu'
              · rename_i inc heq
                exact hphi _ _ _ _
                  (fun x hx => hops x (by rw [heq]; simpa [VKind.opIds] using hx))
                  hu'
              · rename_i tv fv heq
                exact ih _ _ _ _ (hops tv (by rw [heq]; simp [VKind.opIds])) hu'
              · rename_i op heq
                exact ih _ _ _ _ (hops op (by rw [heq]; simp [VKind.opIds])) hu'
              · rfl

theorem unvis_empty (env : IREnv) : unvis env ∅ = env.N := by
  simp [unvis]

theorem chainLoopF_isSome (env : IREnv) (hwf : WFEnv env) (wfuel : Nat) :
    ∀ lf cv tyList nv vis, okId env cv → okId env nv →
      unvis env vis < wfuel → unvis env vis < lf →
      (chainLoopF env wfuel lf cv tyList nv vis).isSome := by
  intro lf
  induction lf with
  | zero => intro cv tyList nv vis _ _ _ hu; exact absurd hu (Nat.not_lt_zero _)
  | succ lf ih =>
      intro cv tyList nv vis hcv hnv huw hul
      simp only [chainLoopF]
      cases hr : nextLayerBaseTypeF env wfuel cv tyList nv vis with
      | none =>
          have hs := nextLayerBaseTypeF_isSome env hwf wfuel cv tyList nv vis hcv huw
          rw [hr] at hs; simp at hs
      | some r =>
          simp only [Option.bind_eq_bind, Option.some_bind]
          split
          · rename_i hret
            rcases nextLayerBaseTypeF_visited env wfuel cv tyList nv vis r hr hret
              with ⟨v, hcveq, hvnot, hsub⟩
            have hvN : v < env.N := by rw [hcveq] at hcv; exact hcv
            have hstep : unvis env r.visited < unvis env vis :=
              Nat.lt_of_le_of_lt (unvis_mono env hsub)
                (unvis_insert_lt env vis v hvN hvnot)
            exact ih r.nextV r.tyList r.nextV r.visited
              (nextLayerBaseTypeF_nextV env hwf wfuel cv tyList nv vis r hcv hnv hr)
              (nextLayerBaseTypeF_nextV env hwf wfuel cv tyList nv vis r hcv hnv hr)
              (Nat.lt_trans hstep huw)
              (Nat.lt_of_lt_of_le hstep (Nat.lt_succ_iff.mp hul))
          · rfl

/-- C9: `getBaseTypeChain` terminates on every value of every
well-formed program: the visited sets passed to `getBaseType` and
`nextLayerBaseType` bound all recursion and the layer-advance loop by
the number of graph values, so fuel `N + 1` always completes
(`isSome`). -/
theorem getBaseTypeChain_terminates (env : IREnv) (hwf : WFEnv env)
    (v : Nat) (hv : v < env.N) :
    (getBaseTypeChainF env (env.N + 1) v).isSome := by
  have hb : unvis env (∅ : Finset Nat) < env.N + 1 := by
    rw [unvis_empty]; exact Nat.lt_succ_self _
  have h1 := getBaseTypeF_isSome env hwf (env.N + 1) (some v) ∅ hv hb
  rcases Option.isSome_iff_exists.mp h1 with ⟨b, hbd⟩
  have h2 := chainLoopF_isSome env hwf (env.N + 1) (env.N + 1) (some v) [] none ∅
    hv trivial hb hb
  rcases Option.isSome_iff_exists.mp h2 with ⟨l, hld⟩
  simp [getBaseTypeChainF, hbd, hld]

/-- A small three-node well-formed program (a load of a GEP of an
argument) for the termination witness. -/
def envW : IREnv where
  N := 3
  node := fun v =>
    match v with
    | 0 => ⟨.load 1, ⟨0, .ptr (.int 8)⟩, true, false⟩
    | 1 => ⟨.gep 2 ⟨0, .strct "s" [.int 8]⟩ [some 0, some 0] [],
            ⟨0, .ptr (.int 8)⟩, true, false⟩
    | _ => ⟨.arg, ⟨0, .ptr (.int 8)⟩, false, false⟩
  aliasPtr := fun _ => none
  gepOffsetIndices := fun _ _ => []
  isIntrinsic := fun _ => false
  stripPC := fun x => x
  fieldInsensitive := false
  sound := true

/-- Witness for C9 at a concrete program and value. -/
theorem getBaseTypeChain_terminates_witness :
    WFEnv envW ∧ 0 < envW.N ∧ (getBaseTypeChainF envW (envW.N + 1) 0).isSome :=
  ⟨by decide, by decide, getBaseTypeChain_terminates envW (by decide) 0 (by decide)⟩

/-! ## Type-flow collection (C7)

The state built by the collection passes: `typeIdxFuncsMap` as a list
of `((type-key, index), function)` entries, `typeCapSet`, and
`VTableFuncsMap` as `(global, function)` entries. -/

/-- Collection-phase state. -/
structure CState : Type where
  tif : List ((Ty × Int) × Nat)
  capSet : Finset HKey
  vtf : List (Nat × Nat)

/-- `typeIdxFuncsMap[k][i].insert(f)`. -/
def tifInsert (st : CState) (k : Ty) (i : Int) (f : Nat) : CState :=
  { st with tif := ((k, i), f) :: st.tif }

/-- `typeIdxFuncsMap[k][i]` as a set of functions. -/
def lookupTif (tif : List ((Ty × Int) × Nat)) (k : Ty) (i : Int) : Finset Nat :=
  ((tif.filter (fun e => e.1 = (k, i))).map (fun e => e.2)).toFinset

/-- The container climb of `typeConfineInInitializer`: walk up
`ContainersMap` from the found operand, inserting the found function at
each container's `(type, operand-index)` slot (index `0` in
field-insensitive mode), stopping on a cycle. -/
def climbContainers (env : IREnv) (cm : List (Nat × (Nat × Nat))) (fnd : Nat) :
    Nat → Nat → Finset Nat → CState → CState
  | 0, _, _, st => st
  | fuel + 1, cv, vis, st =>
    match lookupA cm cv with
    | none => st
    | some ci =>
        let key := (env.node ci.1).ty.ty
        let st := tifInsert st key
          (if env.fieldInsensitive then 0 else (ci.2 : Int)) fnd
        let vis := insert cv vis
        if ci.1 ∈ vis then st
        else climbContainers env cm fnd fuel ci.1 vis st

/-- The operand dispatch of `typeConfineInInitializer`: classify the
operand (function / composite / `PtrToInt` / `BitCast` / pointer /
other), producing the found function (if any), the worklist pushes,
and the vtable / cap side effects. -/
def classifyOp (env : IREnv) (gv u o : Nat) (st : CState) :
    Option Nat × List Nat × CState :=
  let oN := env.node o
  match oN.kind with
  | .func f => (some f, [], st)
  | k =>
    if isCompositeType oN.ty.ty then (none, [o], st)
    else
      match k with
      | .ptrToInt op =>
          match (env.node op).kind with
          | .func f => (some f, [], st)
          | _ => (none, [op], st)
      | .bitcast op =>
          match (env.node op).kind with
          | .func f =>
              (some f, [],
                if (env.node u).ty.ty.isStruct then st
                else { st with vtf := (gv, f) :: st.vtf })
          | _ => (none, [op], st)
      | _ =>
          if oN.ty.ty.isPtr then
            match k with
            | .nullPtr => (none, [], st)
            | .gvar _ =>
                (none, [o],
                  if oN.ty.ty.pointee.isStruct then
                    { st with capSet := insert (.tyH oN.ty.ty.pointee) st.capSet }
                  else st)
            | _ => (none, [o], st)
          else (none, [], st)

/-- One operand of one worklist element in `typeConfineInInitializer`:
record the container in `ContainersMap`, classify the operand, and
climb the containers when a non-intrinsic function was found. -/
def procOp (env : IREnv) (gv u : Nat) (idx : Nat) (o : Nat)
    (cm : List (Nat × (Nat × Nat))) (st : CState) :
    List Nat × List (Nat × (Nat × Nat)) × CState :=
  let cm := (o, (u, idx)) :: cm
  match classifyOp env gv u o st with
  | (some f, pushes, st) =>
      if env.isIntrinsic f then (pushes, cm, st)
      else (pushes, cm, climbContainers env cm f (env.N + 1) o ∅ st)
  | (none, pushes, st) => (pushes, cm, st)

/-- The operand loop of one worklist element. -/
def procOps (env : IREnv) (gv u : Nat) :
    List (Nat × Nat) → List Nat → List (Nat × (Nat × Nat)) → CState →
    List Nat × List (Nat × (Nat × Nat)) × CState
  | [], pushes, cm, st => (pushes, cm, st)
  | (idx, o) :: rest, pushes, cm, st =>
      let r := procOp env gv u idx o cm st
      procOps env gv u rest (pushes ++ r.1) r.2.1 r.2.2

/-- The worklist of `typeConfineInInitializer` (fueled; the visited set
bounds it in the source).  A struct constant with no operands is
skipped. -/
def initWorklist (env : IREnv) (gv : Nat) :
    Nat → List Nat → Finset Nat → List (Nat × (Nat × Nat)) → CState → CState
  | 0, _, _, _, st => st
  | _ + 1, [], _, _, st => st
  | fuel + 1, u :: lu, vis, cm, st =>
      if u ∈ vis then initWorklist env gv fuel lu vis cm st
      else
        let vis' := insert u vis
        if (env.node u).ty.ty.isStruct ∧ (env.node u).kind.opIds = [] then
          initWorklist env gv fuel lu vis' cm st
        else
          let r := procOps env gv u (env.node u).kind.opIds.enum [] cm st
          initWorklist env gv fuel (lu ++ r.1) vis' r.2.1 r.2.2

/-- Worklist fuel: generous, the invariants below hold for any fuel. -/
def initFuel (env : IREnv) : Nat :=
  (env.N + 1) * (env.N + 2)

/-- `MLTA::typeConfineInInitializer(GV, DL)`: only constant-aggregate
initializers are walked. -/
def typeConfineInInitializer (env : IREnv) (gv : Nat) (st : CState) : CState :=
  match (env.node gv).kind with
  | .gvar (ini :: _) =>
      if (env.node ini).kind.isCagg then
        initWorklist env gv (initFuel env) [ini] ∅ [] st
      else st
  | _ => st

/-- `MLTA::confineTargetFunction(V, F, DL)`: insert `F` at every
`(type, index)` of the base-type chain of `V`; an incomplete chain caps
its tail type (or the function's hash when the chain is empty). -/
def confineTargetFunction (env : IREnv) (v f : Nat) (st : CState) : CState :=
  if env.isIntrinsic f then st
  else
    match getBaseTypeChainF env (env.N + 1) v with
    | none => st
    | some cc =>
        let st := cc.1.foldl (fun st ti => tifInsert st ti.1.ty ti.2 f) st
        let st :=
          match chainCapIns cc.1 cc.2 with
          | some k => { st with capSet := insert k st.capSet }
          | none => st
        if cc.2 then st
        else
          match cc.1.getLast? with
          | some l => { st with capSet := insert (.tyH l.1.ty) st.capSet }
          | none => { st with capSet := insert (.funcH f) st.capSet }

/-- An instruction as `typeConfineInFunction` sees it: a store (with
pointer and value operand ids), a call — carrying, for every operand
that is a function constant, the operand's value id, the function id,
and the ids of the users of the matching formal parameter of the
resolved callee (empty when the callee or parameter is unavailable) —
or anything else. -/
inductive FInst : Type where
  | storeI (po vo : Nat) : FInst
  | callI (indirect : Bool) (fops : List (Nat × Nat × List Nat)) : FInst
  | otherF : FInst

/-- Is a parameter user a `StoreInst` or a `BitCastOperator`? -/
def isStoreOrBitcast : VKind → Bool
  | .storeN _ _ => true
  | .bitcast _ => true
  | _ => false

/-- `MLTA::typeConfineInFunction(F, DL)` over a function body;
`curIntrinsic` is `F->isIntrinsic()` for the store case's check. -/
def typeConfineInFunction (env : IREnv) (curIntrinsic : Bool)
    (body : List FInst) (st : CState) : CState :=
  body.foldl
    (fun st i =>
      match i with
      | .storeI po vo =>
          match getBaseFunction env (env.N + 1) (env.stripPC vo) with
          | none => st
          | some cf => if curIntrinsic then st else confineTargetFunction env po cf st
      | .callI indirect fops =>
          fops.foldl
            (fun st fo =>
              if env.isIntrinsic fo.2.1 then st
              else if indirect then confineTargetFunction env fo.1 fo.2.1 st
              else
                fo.2.2.foldl
                  (fun st u =>
                    if isStoreOrBitcast (env.node u).kind then
                      confineTargetFunction env u fo.2.1 st
                    else st) st) st
      | .otherF => st) st

/-- A module: its globals and its functions (intrinsic flag and body). -/
structure ModuleRec : Type where
  globals : List Nat
  funcs : List (Bool × List FInst)

/-- The per-module collection: confinement in initializers, then in
functions. -/
def collectModule (env : IREnv) (m : ModuleRec) (st : CState) : CState :=
  let st := m.globals.foldl (fun st gv => typeConfineInInitializer env gv st) st
  m.funcs.foldl (fun st fb => typeConfineInFunction env fb.1 fb.2 st) st

/-- The collection phase that C7 quantifies over. -/
def collectAll (env : IREnv) (ms : List ModuleRec) (st : CState) : CState :=
  ms.foldl (fun st m => collectModule env m st) st

/-- The C7 invariant: every `typeIdxFuncsMap` entry sits at index 0. -/
def AllZeroTif (st : CState) : Prop :=
  ∀ e ∈ st.tif, e.1.2 = (0 : Int)

theorem AllZeroTif_tifInsert (st : CState) (k : Ty) (f : Nat)
    (h : AllZeroTif st) : AllZeroTif (tifInsert st k 0 f) := by
  intro e he
  rcases List.mem_cons.mp he with rfl | he'
  · rfl
  · exact h e he'

theorem classifyOp_tif (env : IREnv) (gv u o : Nat) (st : CState) :
    (classifyOp env gv u o st).2.2.tif = st.tif := by
  simp only [classifyOp]
  repeat' split
  all_goals rfl

theorem climbContainers_zero (env : IREnv) (hfi : env.fieldInsensitive = true)
    (cm : List (Nat × (Nat × Nat))) (fnd : Nat) :
    ∀ fuel cv vis st, AllZeroTif st →
      AllZeroTif (climbContainers env cm fnd fuel cv vis st) := by
  intro fuel
  induction fuel with
  | zero => intro cv vis st h; exact h
  | succ fuel ih =>
      intro cv vis st h
      simp only [climbContainers, hfi, if_true]
      split
      · exact h
      · split
        · exact AllZeroTif_tifInsert _ _ _ h
        · exact ih _ _ _ (AllZeroTif_tifInsert _ _ _ h)

theorem procOp_zero (env : IREnv) (hfi : env.fieldInsensitive = true)
    (gv u idx o : Nat) (cm : List (Nat × (Nat × Nat))) (st : CState)
    (h : AllZeroTif st) : AllZeroTif (procOp env gv u idx o cm st).2.2 := by
  unfold procOp
  cases hc : classifyOp env gv u o st with
  | mk of rest =>
      obtain ⟨pushes, st'⟩ := rest
      have hst' : AllZeroTif st' := by
        have ht := classifyOp_tif env gv u o st
        rw [hc] at ht
        intro e he
        exact h e (ht ▸ he)
      cases of with
      | none => exact hst'
      | some f =>
          simp only []
          split
          · exact hst'
          · exact climbContainers_zero env hfi _ _ _ _ _ _ hst'

theorem procOps_zero (env : IREnv) (hfi : env.fieldInsensitive = true)
    (gv u : Nat) :
    ∀ l pushes cm st, AllZeroTif st →
      AllZeroTif (procOps env gv u l pushes cm st).2.2 := by
  intro l
  induction l with
  | nil => intro pushes cm st h; exact h
  | cons p rest ih =>
      intro pushes cm st h
      obtain ⟨idx, o⟩ := p
      simp only [procOps]
      exact ih _ _ _ (procOp_zero env hfi gv u idx o cm st h)

theorem initWorklist_zero (env : IREnv) (hfi : env.fieldInsensitive = true)
    (gv : Nat) :
    ∀ fuel lu vis cm st, AllZeroTif st →
      AllZeroTif (initWorklist env gv fuel lu vis cm st) := by
  intro fuel
  induction fuel with
  | zero => intro lu vis cm st h; exact h
  | succ fuel ih =>
      intro lu vis cm st h
      cases lu with
      | nil => exact h
      | cons u rest =>
          simp only [initWorklist]
          split
          · exact ih _ _ _ _ h
          · split
            · exact ih _ _ _ _ h
            · exact ih _ _ _ _ (procOps_zero env hfi gv u _ _ _ _ h)

theorem typeConfineInInitializer_zero (env : IREnv)
    (hfi : env.fieldInsensitive = true) (gv : Nat) (st : CState)
    (h : AllZeroTif st) : AllZeroTif (typeConfineInInitializer env gv st) := by
  unfold typeConfineInInitializer
  repeat' split
  all_goals first
    | exact h
    | exact initWorklist_zero env hfi gv _ _ _ _ _ h

theorem gepWalk_zero (env : IREnv) (hfi : env.fieldInsensitive = true) :
    ∀ idxs ETy acc, ∀ x ∈ (gepWalk env ETy idxs acc).2, x ∈ acc ∨ x.2 = (0 : Int) := by
  intro idxs
  induction idxs with
  | nil => intro ETy acc x hx; exact .inl hx
  | cons idx rest ih =>
      intro ETy acc x hx
      simp only [gepWalk] at hx
      rcases ih _ _ x hx with h | h
      · rcases List.mem_cons.mp h with rfl | h'
        · right; simp [hfi]
        · exact .inl h'
      · exact .inr h

theorem gepFinal_zero (env : IREnv) (walked : TyV × List (TyV × Int))
    (bcUsers : List TyV) :
    ∀ x ∈ gepFinal env walked bcUsers, x ∈ walked.2 ∨ x.2 = (0 : Int) := by
  intro x hx
  unfold gepFinal at hx
  split at hx
  · split at hx
    · rcases List.mem_cons.mp hx with rfl | h'
      · exact .inr rfl
      · exact .inl h'
    · exact .inl hx
  · exact .inl hx

theorem getGEPLayerTypes_zero (env : IREnv) (hfi : env.fieldInsensitive = true)
    (po : Nat) (ETy0 : TyV) (idxs : List (Option Int)) (bcUsers : List TyV)
    (tyList : List (TyV × Int)) (h : ∀ x ∈ tyList, x.2 = (0 : Int)) :
    ∀ x ∈ (getGEPLayerTypes env po ETy0 idxs bcUsers tyList).2, x.2 = 0 := by
  intro x hx
  unfold getGEPLayerTypes at hx
  split at hx
  · exact h x hx
  · split at hx
    · rcases List.mem_append.mp hx with h' | h'
      · exact h x h'
      · rcases gepFinal_zero env _ bcUsers x h' with h'' | h''
        · rcases gepWalk_zero env hfi _ _ _ x h'' with h3 | h3
          · exact absurd h3 (List.not_mem_nil x)
          · exact h3
        · exact h''
    · exact h x hx

theorem phiWalkF_zero_of (env : IREnv) (fuel : Nat)
    (hW : ∀ cv tyList nv vis r,
      nextLayerBaseTypeF env fuel cv tyList nv vis = some r →
      (∀ x ∈ tyList, x.2 = (0 : Int)) → ∀ x ∈ r.tyList, x.2 = (0 : Int)) :
    ∀ l tyList nv vis r, phiWalkF env fuel l tyList nv vis = some r →
      (∀ x ∈ tyList, x.2 = (0 : Int)) → ∀ x ∈ r.tyList, x.2 = (0 : Int) := by
  intro l
  induction l with
  | nil =>
      intro tyList nv vis r h _
      simp only [phiWalkF, phiLoop, Option.some_inj] at h
      rw [← h]
      intro x hx
      exact absurd hx (List.not_mem_nil x)
  | cons iv rest ih =>
      intro tyList nv vis r h hz
      cases rest with
      | nil =>
          simp only [phiWalkF, phiLoop] at h
          exact hW _ _ _ _ _ h hz
      | cons iv2 rest2 =>
          simp only [phiWalkF, phiLoop] at h
          cases hr1 : nextLayerBaseTypeF env fuel (some iv) tyList (some iv) vis with
          | none => rw [hr1] at h; simp at h
          | some r1 =>
              rw [hr1] at h
              simp only [Option.bind_eq_bind, Option.some_bind] at h
              split at h
              · simp only [Option.some_inj] at h
                rw [← h]
                exact hW _ _ _ _ _ hr1 hz
              · exact ih _ _ _ _ h hz

theorem nextLayerBaseTypeF_zero (env : IREnv)
    (hfi : env.fieldInsensitive = true) :
    ∀ fuel cv tyList nv vis r,
      nextLayerBaseTypeF env fuel cv tyList nv vis = some r →
      (∀ x ∈ tyList, x.2 = (0 : Int)) → ∀ x ∈ r.tyList, x.2 = (0 : Int) := by
  intro fuel
  induction fuel with
  | zero => intro cv tyList nv vis r h; simp [nextLayerBaseTypeF] at h
  | succ fuel ih =>
      have hphi := phiWalkF_zero_of env fuel
        (fun cv tyList nv vis r => ih cv tyList nv vis r)
      intro cv tyList nv vis r h hz
      match cv with
      | none =>
          simp only [nextLayerBaseTypeF, Option.some_inj] at h
          rw [← h]; exact hz
      | some v =>
          simp only [nextLayerBaseTypeF] at h
          by_cases ha : (env.node v).kind.isArg
          · rw [if_pos ha] at h
            simp only [Option.some_inj] at h
            rw [← h]; exact hz
          · rw [if_neg ha] at h
            by_cases hv : v ∈ vis
            · rw [if_pos hv] at h
              simp only [Option.some_inj] at h
              rw [← h]; exact hz
            · rw [if_neg hv] at h
              split at h
              · rename_i po srcTy idxs bc heq
                split at h <;> simp only [Option.some_inj] at h <;> rw [← h] <;>
                  exact getGEPLayerTypes_zero env hfi po srcTy idxs bc tyList hz
              · exact ih _ _ _ _ _ h hz
              · exact ih _ _ _ _ _ h hz
              · exact hphi _ _ _ _ _ h hz
              · exact ih _ _ _ _ _ h hz
              · exact ih _ _ _ _ _ h hz
              · simp only [Option.some_inj] at h
                rw [← h]; exact hz

theorem chainLoopF_zero (env : IREnv) (hfi : env.fieldInsensitive = true)
    (wfuel : Nat) :
    ∀ lf cv tyList nv vis l, chainLoopF env wfuel lf cv tyList nv vis = some l →
      (∀ x ∈ tyList, x.2 = (0 : Int)) → ∀ x ∈ l.1, x.2 = (0 : Int) := by
  intro lf
  induction lf with
  | zero => intro cv tyList nv vis l h; simp [chainLoopF] at h
  | succ lf ih =>
      intro cv tyList nv vis l h hz
      simp only [chainLoopF] at h
      cases hr : nextLayerBaseTypeF env wfuel cv tyList nv vis with
      | none => rw [hr] at h; simp at h
      | some r =>
          rw [hr] at h
          simp only [Option.bind_eq_bind, Option.some_bind] at h
          split at h
          · exact ih _ _ _ _ _ h
              (nextLayerBaseTypeF_zero env hfi wfuel _ _ _ _ _ hr hz)
          · simp only [Option.some_inj] at h
            rw [← h]
            exact nextLayerBaseTypeF_zero env hfi wfuel _ _ _ _ _ hr hz

theorem getBaseTypeChainF_zero (env : IREnv)
    (hfi : env.fieldInsensitive = true) (fuel v : Nat)
    (cc : List (TyV × Int) × Bool)
    (h : getBaseTypeChainF env fuel v = some cc) :
    ∀ x ∈ cc.1, x.2 = (0 : Int) := by
  unfold getBaseTypeChainF at h
  cases hb : getBaseTypeF env fuel (some v) ∅ with
  | none => rw [hb] at h; simp at h
  | some b =>
      rw [hb] at h
      simp only [Option.bind_eq_bind, Option.some_bind] at h
      cases hl : chainLoopF env fuel fuel (some v) [] none ∅ with
      | none => rw [hl] at h; simp at h
      | some l =>
          rw [hl] at h
          simp only [Option.bind_eq_bind, Option.some_bind,
            Option.some_inj] at h
          rw [← h]
          intro x hx
          rcases List.mem_append.mp hx with h' | h'
          · revert h'
            split
            · intro h'
              rcases List.mem_singleton.mp h' with rfl
              rfl
            · intro h'
              exact absurd h' (List.not_mem_nil x)
          · exact chainLoopF_zero env hfi fuel fuel _ _ _ _ _ hl
              (fun x hx => absurd hx (List.not_mem_nil x)) x h'

theorem foldl_preserve {α : Type} (P : CState → Prop) (f : CState → α → CState)
    (hf : ∀ st a, P st → P (f st a)) :
    ∀ (l : List α) (st : CState), P st → P (l.foldl f st) := by
  intro l
  induction l with
  | nil => intro st h; exact h
  | cons a rest ih => intro st h; exact ih _ (hf st a h)

theorem confineTargetFunction_zero (env : IREnv)
    (hfi : env.fieldInsensitive = true) (v f : Nat) (st : CState)
    (h : AllZeroTif st) : AllZeroTif (confineTargetFunction env v f st) := by
  unfold confineTargetFunction
  split
  · exact h
  · split
    · exact h
    · rename_i cc hcc
      have hz := getBaseTypeChainF_zero env hfi (env.N + 1) v cc hcc
      have hgen : ∀ (l : List (TyV × Int)) (s : CState),
          (∀ x ∈ l, x.2 = (0 : Int)) → AllZeroTif s →
          AllZeroTif (l.foldl (fun s ti => tifInsert s ti.1.ty ti.2 f) s) := by
        intro l
        induction l with
        | nil => intro s _ hs; exact hs
        | cons ti rest ih =>
            intro s hl hs
            simp only [List.foldl_cons]
            have h0 : ti.2 = 0 := hl ti (List.mem_cons_self _ _)
            refine ih _ (fun x hx => hl x (List.mem_cons_of_mem _ hx)) ?_
            rw [h0]
            exact AllZeroTif_tifInsert _ _ _ hs
      have hfold := hgen cc.1 st hz h
      dsimp only
      repeat' split
      all_goals exact hfold

theorem typeConfineInFunction_zero (env : IREnv)
    (hfi : env.fieldInsensitive = true) (ci : Bool) (body : List FInst)
    (st : CState) (h : AllZeroTif st) :
    AllZeroTif (typeConfineInFunction env ci body st) := by
  unfold typeConfineInFunction
  refine foldl_preserve AllZeroTif _ ?_ body st h
  intro st i hst
  match i with
  | .storeI po vo =>
      simp only []
      split
      · exact hst
      · split
        · exact hst
        · exact confineTargetFunction_zero env hfi _ _ _ hst
  | .callI indirect fops =>
      simp only []
      refine foldl_preserve AllZeroTif _ ?_ fops st hst
      intro st fo hst2
      split
      · exact hst2
      · split
        · exact confineTargetFunction_zero env hfi _ _ _ hst2
        · refine foldl_preserve AllZeroTif _ ?_ fo.2.2 st hst2
          intro st u hst3
          split
          · exact confineTargetFunction_zero env hfi _ _ _ hst3
          · exact hst3
  | .otherF => exact hst

/-- C7: in field-insensitive mode, after the collection phase
(`typeConfineInInitializer` and `typeConfineInFunction` over all
modules, starting from empty maps), every `typeIdxFuncsMap[T][i]` with
`i ≠ 0` is empty: every confinement insertion uses index 0. -/
theorem field_insensitive_collapse (env : IREnv) (ms : List ModuleRec)
    (hfi : env.fieldInsensitive = true) (T : Ty) (i : Int) (hi : i ≠ 0) :
    lookupTif (collectAll env ms ⟨[], ∅, []⟩).tif T i = ∅ := by
  have hz : AllZeroTif (collectAll env ms ⟨[], ∅, []⟩) := by
    refine foldl_preserve AllZeroTif _ ?_ ms _ ?_
    · intro st m hst
      unfold collectModule
      refine foldl_preserve AllZeroTif _ ?_ m.funcs _ ?_
      · intro st2 fb hst2
        exact typeConfineInFunction_zero env hfi fb.1 fb.2 st2 hst2
      · refine foldl_preserve AllZeroTif _ ?_ m.globals _ hst
        intro st2 gv hst2
        exact typeConfineInInitializer_zero env hfi gv st2 hst2
    · intro e he
      exact absurd he (List.not_mem_nil e)
  unfold lookupTif
  have hfil : (collectAll env ms ⟨[], ∅, []⟩).tif.filter
      (fun e => e.1 = (T, i)) = [] := by
    rw [List.filter_eq_nil_iff]
    intro e he
    simp only [decide_eq_true_eq]
    intro hc
    apply hi
    have h0 := hz e he
    rw [hc] at h0
    exact h0
  rw [hfil]
  rfl

/-- The field-insensitive variant of the witness environment. -/
def envW7 : IREnv :=
  { envW with fieldInsensitive := true }

/-- Witness for C7 at a concrete environment, module list, type and
nonzero index. -/
theorem field_insensitive_collapse_witness :
    envW7.fieldInsensitive = true ∧ (1 : Int) ≠ 0 ∧
    lookupTif (collectAll envW7 [⟨[2], [(false, [.storeI 0 1])]⟩]
      ⟨[], ∅, []⟩).tif (.int 8) 1 = ∅ :=
  ⟨by decide, by decide,
    field_insensitive_collapse envW7 [⟨[2], [(false, [.storeI 0 1])]⟩]
      (by decide) (.int 8) 1 (by decide)⟩

/-! ## The resolver: `findCalleesWithMLTA` (C1, C3, C4, C8) -/

/-- The analysis tables the resolver reads: `Ctx->sigFuncsMap` keyed by
call hash, `typeIdxFuncsMap` (as in the collection phase),
`typeIdxPropMap`, `typeCapSet` and `typeEscapeSet`. -/
structure RTables : Type where
  sigFuncsMap : Nat → Finset Nat
  tif : List ((Ty × Int) × Nat)
  pm : List (TIK × TIK)
  capSet : Finset HKey
  escapeSet : Finset TIK

/-- `MLTA::getTargetsWithLayerType(TyHash, Idx, FS)` as a set value:
for `Idx = -1` the union of the sets under every index of the type,
otherwise the set under `Idx` unioned with the set under `-1`. -/
def getTargetsWithLayerType (tif : List ((Ty × Int) × Nat)) (T : Ty)
    (i : Int) : Finset Nat :=
  if i = -1 then
    ((tif.filter (fun e => e.1.1 = T)).map (fun e => e.2)).toFinset
  else lookupTif tif T i ∪ lookupTif tif T (-1)

/-- `MLTA::intersectFuncSets(FS1, FS2, FS)`: the elements of `FS1` that
are also in `FS2`. -/
def intersectFuncSets (fs1 fs2 : Finset Nat) : Finset Nat :=
  fs1.filter (fun f => f ∈ fs2)

/-- The per-layer candidate set `FS1`: the layer's direct targets
unioned with the targets of every dependent type (the
`getDependentTypes` / `PropSet` loop of the source). -/
def computeFS1 (tbl : RTables) (T : TyV) (i : Int) : Finset Nat :=
  getTargetsWithLayerType tbl.tif T.ty i ∪
    (getDependentTypes tbl.pm T i).sup
      (fun p => getTargetsWithLayerType tbl.tif p.1 p.2)

/-- The resolver's loop state: the running target set `FS`, the
`MatchedFuncsMap` cache, `CV`, `NextV`, `LayerNo`, `PrevLayerTy` and
`ContinueNextLayer`. -/
structure RState : Type where
  FS : Finset Nat
  cache : List ((Ty × Int) × Finset Nat)
  cv : Option Nat
  nv : Option Nat
  layerNo : Nat
  prevTy : TyV
  cont : Bool

/-- The tail of one layer iteration once `FS1` is known: intersect it
into `FS`, advance `CV` to `NextV`, then in sound mode stop both loops
if the layer's type is capped (`ContinueNextLayer = false`), else
record the layer's type as `PrevLayerTy`.  The boolean says whether the
remaining entries of `TyList` are still processed. -/
def layerIntersect (env : IREnv) (tbl : RTables) (nv : Option Nat)
    (ti : TyV × Int) (fs1 : Finset Nat) (st : RState) : RState × Bool :=
  let st2 := { st with FS := intersectFuncSets fs1 st.FS, cv := nv }
  if env.sound ∧ HKey.tyH ti.1.ty ∈ tbl.capSet then
    ({ st2 with cont := false }, false)
  else ({ st2 with prevTy := ti.1 }, true)

/-- One iteration of the `for (auto TyIdx : TyList)` loop of
`findCalleesWithMLTA`: the `MAX_TYPE_LAYER` check, the `++LayerNo`, the
`MatchedFuncsMap` cache lookup, in sound mode the `typeEscapeSet` stop
(which leaves the inner loop with `ContinueNextLayer` still true), the
candidate computation and caching, and `layerIntersect`. -/
def layerStep (env : IREnv) (tbl : RTables) (maxL : Nat) (nv : Option Nat)
    (ti : TyV × Int) (st : RState) : RState × Bool :=
  if maxL ≤ st.layerNo then (st, false)
  else
    let st1 := { st with layerNo := st.layerNo + 1 }
    match lookupA st1.cache (ti.1.ty, ti.2) with
    | some fs1 => layerIntersect env tbl nv ti fs1 st1
    | none =>
        if env.sound ∧ ((ti.1.ty, ti.2) ∈ tbl.escapeSet ∨
            (ti.1.ty, (-1 : Int)) ∈ tbl.escapeSet) then (st1, false)
        else
          layerIntersect env tbl nv ti (computeFS1 tbl ti.1 ti.2)
            { st1 with
                cache := ((ti.1.ty, ti.2), computeFS1 tbl ti.1 ti.2) ::
                  st1.cache }

/-- The `for (auto TyIdx : TyList)` loop: `layerStep` on each entry
until one of them stops the loop. -/
def processTyList (env : IREnv) (tbl : RTables) (maxL : Nat)
    (nv : Option Nat) : List (TyV × Int) → RState → RState
  | [], st => st
  | ti :: rest, st =>
      let r := layerStep env tbl maxL nv ti st
      if r.2 then processTyList env tbl maxL nv rest r.1 else r.1

/-- The `while (ContinueNextLayer)` loop of `findCalleesWithMLTA`:
check `ContinueNextLayer`, the layer cap, and in sound mode the
`typeCapSet` entry of `PrevLayerTy`; then walk one layer from `CV` with
an empty `TyList` and a fresh `Visited` set, stop if no layer types
come back, and otherwise process them.  Each pass with a nonempty
`TyList` raises `LayerNo`, so fuel `MAX_TYPE_LAYER` covers every
iteration the source loop can make. -/
def resolveLoop (env : IREnv) (tbl : RTables) (maxL : Nat) :
    Nat → RState → RState
  | 0, st => st
  | fuel + 1, st =>
    if st.cont = false then st
    else if maxL ≤ st.layerNo then st
    else if env.sound ∧ HKey.tyH st.prevTy.ty ∈ tbl.capSet then st
    else
      match nextLayerBaseTypeF env (env.N + 1) st.cv [] st.nv ∅ with
      | none => st
      | some r =>
          if r.tyList = [] then st
          else
            resolveLoop env tbl maxL fuel
              (processTyList env tbl maxL r.nextV r.tyList
                { st with nv := r.nextV })

/-- `MLTA::findCalleesWithMLTA(CI, FS)`: seed `FS` from `sigFuncsMap`
at the call hash; an empty seed returns `false` at once, otherwise the
layer loop runs (from `LayerNo = 1`, `PrevLayerTy` the call's function
type, `CV` the called operand, null `NextV`) and the call returns
`true`.  `cache0` is the `MatchedFuncsMap` contents on entry. -/
def findCalleesWithMLTA (env : IREnv) (tbl : RTables) (maxL : Nat)
    (ci : CallRec) (cache0 : List ((Ty × Int) × Finset Nat)) :
    RState × Bool :=
  let FS := tbl.sigFuncsMap ci.chash
  let st0 : RState := ⟨FS, cache0, some ci.calledOp, none, 1, ci.funcTy, true⟩
  if FS = ∅ then (st0, false)
  else (resolveLoop env tbl maxL maxL st0, true)

theorem intersectFuncSets_subset_right (fs1 fs2 : Finset Nat) :
    intersectFuncSets fs1 fs2 ⊆ fs2 := by
  intro x hx
  exact (Finset.mem_filter.mp hx).2

theorem layerIntersect_FS (env : IREnv) (tbl : RTables) (nv : Option Nat)
    (ti : TyV × Int) (fs1 : Finset Nat) (st : RState) :
    (layerIntersect env tbl nv ti fs1 st).1.FS ⊆ st.FS := by
  unfold layerIntersect
  dsimp only
  split
  · exact intersectFuncSets_subset_right _ _
  · exact intersectFuncSets_subset_right _ _

theorem layerStep_FS (env : IREnv) (tbl : RTables) (maxL : Nat)
    (nv : Option Nat) (ti : TyV × Int) (st : RState) :
    (layerStep env tbl maxL nv ti st).1.FS ⊆ st.FS := by
  unfold layerStep
  dsimp only
  split
  · exact Finset.Subset.refl _
  · split
    · exact layerIntersect_FS env tbl nv ti _ _
    · split
      · exact Finset.Subset.refl _
      · exact layerIntersect_FS env tbl nv ti _ _

theorem processTyList_FS (env : IREnv) (tbl : RTables) (maxL : Nat)
    (nv : Option Nat) :
    ∀ l st, (processTyList env tbl maxL nv l st).FS ⊆ st.FS := by
  intro l
  induction l with
  | nil => intro st; exact Finset.Subset.refl _
  | cons ti rest ih =>
      intro st
      rw [processTyList]
      split
      · exact ((ih _).trans (layerStep_FS env tbl maxL nv ti st))
      · exact layerStep_FS env tbl maxL nv ti st

theorem resolveLoop_FS (env : IREnv) (tbl : RTables) (maxL : Nat) :
    ∀ fuel st, (resolveLoop env tbl maxL fuel st).FS ⊆ st.FS := by
  intro fuel
  induction fuel with
  | zero => intro st; exact Finset.Subset.refl _
  | succ fuel ih =>
      intro st
      rw [resolveLoop]
      split
      · exact Finset.Subset.refl _
      · split
        · exact Finset.Subset.refl _
        · split
          · exact Finset.Subset.refl _
          · split
            · exact Finset.Subset.refl _
            · split
              · exact Finset.Subset.refl _
              · exact (ih _).trans (processTyList_FS _ _ _ _ _ _)

/-- C1: the function set `findCalleesWithMLTA` produces is a subset of
the layer-1 signature seed `sigFuncsMap[callHash(CI)]`: starting from
the seed, every later layer only intersects `FS` with another set,
never adds to it. -/
theorem findCalleesWithMLTA_subset_seed (env : IREnv) (tbl : RTables)
    (maxL : Nat) (ci : CallRec) (cache0 : List ((Ty × Int) × Finset Nat)) :
    (findCalleesWithMLTA env tbl maxL ci cache0).1.FS ⊆
      tbl.sigFuncsMap ci.chash := by
  unfold findCalleesWithMLTA
  dsimp only
  split
  · exact Finset.Subset.refl _
  · exact resolveLoop_FS env tbl maxL maxL _

/-- C8: when the signature seed `sigFuncsMap[callHash(CI)]` is empty,
`findCalleesWithMLTA` returns at once with `FS = ∅` and return value
`false`, without walking any layer: the state is still the entry state
(`LayerNo = 1`, `CV` the called operand, untouched cache). -/
theorem findCalleesWithMLTA_empty_seed (env : IREnv) (tbl : RTables)
    (maxL : Nat) (ci : CallRec) (cache0 : List ((Ty × Int) × Finset Nat))
    (h : tbl.sigFuncsMap ci.chash = ∅) :
    findCalleesWithMLTA env tbl maxL ci cache0 =
      (⟨∅, cache0, some ci.calledOp, none, 1, ci.funcTy, true⟩, false) := by
  unfold findCalleesWithMLTA
  dsimp only
  rw [h, if_pos rfl]

/-- Tables with an everywhere-empty signature map, for the C8
witness. -/
def tblE : RTables := ⟨fun _ => ∅, [], [], ∅, ∅⟩

/-- A concrete call record for the C8 witness. -/
def ciE : CallRec :=
  ⟨false, 0, [], ⟨0, .int 32⟩, 0, ⟨0, .func (.int 32) []⟩, 0⟩

/-- Witness for C8 at a concrete program, tables and call. -/
theorem findCalleesWithMLTA_empty_seed_witness :
    tblE.sigFuncsMap ciE.chash = ∅ ∧
      findCalleesWithMLTA envW tblE 10 ciE [] =
        (⟨∅, [], some ciE.calledOp, none, 1, ciE.funcTy, true⟩, false) :=
  ⟨rfl, findCalleesWithMLTA_empty_seed envW tblE 10 ciE [] rfl⟩

theorem layerStep_eq (env : IREnv) (tbl : RTables) (m1 m2 : Nat)
    (nv : Option Nat) (ti : TyV × Int) (st : RState)
    (h1 : st.layerNo < m1) (h2 : st.layerNo < m2) :
    layerStep env tbl m1 nv ti st = layerStep env tbl m2 nv ti st := by
  unfold layerStep
  rw [if_neg (Nat.not_le.mpr h1), if_neg (Nat.not_le.mpr h2)]

theorem layerStep_stop (env : IREnv) (tbl : RTables) (maxL : Nat)
    (nv : Option Nat) (ti : TyV × Int) (st : RState)
    (h : maxL ≤ st.layerNo) :
    layerStep env tbl maxL nv ti st = (st, false) := by
  unfold layerStep
  rw [if_pos h]

theorem layerIntersect_layerNo (env : IREnv) (tbl : RTables)
    (nv : Option Nat) (ti : TyV × Int) (fs1 : Finset Nat) (s : RState) :
    (layerIntersect env tbl nv ti fs1 s).1.layerNo = s.layerNo := by
  unfold layerIntersect
  dsimp only
  split <;> rfl

theorem layerStep_layerNo_le (env : IREnv) (tbl : RTables) (maxL : Nat)
    (nv : Option Nat) (ti : TyV × Int) (st : RState) :
    st.layerNo ≤ (layerStep env tbl maxL nv ti st).1.layerNo := by
  unfold layerStep
  dsimp only
  split
  · exact Nat.le_refl _
  · split
    · rw [layerIntersect_layerNo]; exact Nat.le_succ _
    · split
      · exact Nat.le_succ _
      · rw [layerIntersect_layerNo]; exact Nat.le_succ _

theorem layerStep_layerNo_lt (env : IREnv) (tbl : RTables) (maxL : Nat)
    (nv : Option Nat) (ti : TyV × Int) (st : RState)
    (h : st.layerNo < maxL) :
    st.layerNo < (layerStep env tbl maxL nv ti st).1.layerNo := by
  unfold layerStep
  rw [if_neg (Nat.not_le.mpr h)]
  dsimp only
  split
  · rw [layerIntersect_layerNo]; exact Nat.lt_succ_self _
  · split
    · exact Nat.lt_succ_self _
    · rw [layerIntersect_layerNo]; exact Nat.lt_succ_self _

theorem processTyList_layerNo_le (env : IREnv) (tbl : RTables) (maxL : Nat)
    (nv : Option Nat) :
    ∀ l st, st.layerNo ≤ (processTyList env tbl maxL nv l st).layerNo := by
  intro l
  induction l with
  | nil => intro st; exact Nat.le_refl _
  | cons ti rest ih =>
      intro st
      rw [processTyList]
      split
      · exact (layerStep_layerNo_le env tbl maxL nv ti st).trans (ih _)
      · exact layerStep_layerNo_le env tbl maxL nv ti st

theorem processTyList_layerNo_lt (env : IREnv) (tbl : RTables) (maxL : Nat)
    (nv : Option Nat) (ti : TyV × Int) (rest : List (TyV × Int)) (st : RState)
    (h : st.layerNo < maxL) :
    st.layerNo < (processTyList env tbl maxL nv (ti :: rest) st).layerNo := by
  rw [processTyList]
  split
  · exact Nat.lt_of_lt_of_le (layerStep_layerNo_lt env tbl maxL nv ti st h)
      (processTyList_layerNo_le env tbl maxL nv rest _)
  · exact layerStep_layerNo_lt env tbl maxL nv ti st h

theorem resolveLoop_stop (env : IREnv) (tbl : RTables) (maxL : Nat)
    (st : RState) (h : maxL ≤ st.layerNo ∨ st.cont = false) :
    ∀ fuel, resolveLoop env tbl maxL fuel st = st := by
  intro fuel
  cases fuel with
  | zero => rfl
  | succ fuel =>
      rw [resolveLoop]
      by_cases hc : st.cont = false
      · rw [if_pos hc]
      · rcases h with h | h
        · rw [if_neg hc, if_pos h]
        · exact absurd h hc

theorem resolveLoop_fuel_stable (env : IREnv) (tbl : RTables) (maxL : Nat) :
    ∀ fuel st, maxL ≤ st.layerNo + fuel →
      resolveLoop env tbl maxL (fuel + 1) st =
        resolveLoop env tbl maxL fuel st := by
  intro fuel
  induction fuel with
  | zero =>
      intro st h
      have h' : maxL ≤ st.layerNo := by omega
      rw [resolveLoop_stop env tbl maxL st (Or.inl h') (0 + 1),
          resolveLoop_stop env tbl maxL st (Or.inl h') 0]
  | succ fuel ih =>
      intro st h
      by_cases hc : st.cont = false
      · rw [resolveLoop_stop env tbl maxL st (Or.inr hc) (fuel + 1 + 1),
            resolveLoop_stop env tbl maxL st (Or.inr hc) (fuel + 1)]
      · by_cases hm : maxL ≤ st.layerNo
        · rw [resolveLoop_stop env tbl maxL st (Or.inl hm) (fuel + 1 + 1),
              resolveLoop_stop env tbl maxL st (Or.inl hm) (fuel + 1)]
        · rw [resolveLoop]
          conv_rhs => rw [resolveLoop]
          rw [if_neg hc, if_neg hc, if_neg hm, if_neg hm]
          by_cases hcap : env.sound = true ∧ HKey.tyH st.prevTy.ty ∈ tbl.capSet
          · rw [if_pos hcap, if_pos hcap]
          · rw [if_neg hcap, if_neg hcap]
            cases hw : nextLayerBaseTypeF env (env.N + 1) st.cv [] st.nv ∅ with
            | none => rfl
            | some r =>
                dsimp only
                by_cases he : r.tyList = []
                · rw [if_pos he, if_pos he]
                · rw [if_neg he, if_neg he]
                  refine ih _ ?_
                  rcases List.exists_cons_of_ne_nil he with ⟨t0, ts, hts⟩
                  have h1 : st.layerNo <
                      (processTyList env tbl maxL r.nextV r.tyList
                        { st with nv := r.nextV }).layerNo := by
                    rw [hts]
                    exact processTyList_layerNo_lt env tbl maxL r.nextV t0 ts
                      { st with nv := r.nextV } (Nat.lt_of_not_le hm)
                  omega

theorem processTyList_maxL_mono (env : IREnv) (tbl : RTables) (k : Nat)
    (nv : Option Nat) :
    ∀ l st,
      processTyList env tbl (k + 1) nv l st =
          processTyList env tbl k nv l st ∨
      (k ≤ (processTyList env tbl k nv l st).layerNo ∧
        (processTyList env tbl (k + 1) nv l st).FS ⊆
          (processTyList env tbl k nv l st).FS) := by
  intro l
  induction l with
  | nil => intro st; exact Or.inl rfl
  | cons ti rest ih =>
      intro st
      by_cases hk : k ≤ st.layerNo
      · have hkr : processTyList env tbl k nv (ti :: rest) st = st := by
          rw [processTyList, layerStep_stop env tbl k nv ti st hk]
          rfl
        rw [hkr]
        exact Or.inr ⟨hk, processTyList_FS env tbl (k + 1) nv (ti :: rest) st⟩
      · have heq : layerStep env tbl (k + 1) nv ti st =
            layerStep env tbl k nv ti st :=
          layerStep_eq env tbl (k + 1) k nv ti st (by omega)
            (Nat.lt_of_not_le hk)
        rw [processTyList, heq, processTyList]
        split
        · exact ih _
        · exact Or.inl rfl

theorem resolveLoop_maxL_mono (env : IREnv) (tbl : RTables) (k : Nat) :
    ∀ fuel st su,
      (st = su ∨ ((k ≤ su.layerNo ∨ su.cont = false) ∧ st.FS ⊆ su.FS)) →
      (resolveLoop env tbl (k + 1) fuel st).FS ⊆
        (resolveLoop env tbl k fuel su).FS := by
  intro fuel
  induction fuel with
  | zero =>
      intro st su hinv
      rcases hinv with rfl | ⟨_, hFS⟩
      · exact Finset.Subset.refl _
      · exact hFS
  | succ fuel ih =>
      intro st su hinv
      rcases hinv with rfl | ⟨hstop, hFS⟩
      · by_cases hc : st.cont = false
        · rw [resolveLoop_stop env tbl (k + 1) st (Or.inr hc) (fuel + 1),
              resolveLoop_stop env tbl k st (Or.inr hc) (fuel + 1)]
        · by_cases hk : k ≤ st.layerNo
          · rw [resolveLoop_stop env tbl k st (Or.inl hk) (fuel + 1)]
            exact resolveLoop_FS env tbl (k + 1) (fuel + 1) st
          · have hk1 : ¬ (k + 1 ≤ st.layerNo) := by omega
            rw [resolveLoop]
            conv_rhs => rw [resolveLoop]
            rw [if_neg hc, if_neg hc, if_neg hk1, if_neg hk]
            by_cases hcap : env.sound = true ∧ HKey.tyH st.prevTy.ty ∈ tbl.capSet
            · rw [if_pos hcap, if_pos hcap]
            · rw [if_neg hcap, if_neg hcap]
              cases hw : nextLayerBaseTypeF env (env.N + 1) st.cv [] st.nv ∅ with
              | none => exact Finset.Subset.refl _
              | some r =>
                  dsimp only
                  by_cases he : r.tyList = []
                  · rw [if_pos he, if_pos he]
                  · rw [if_neg he, if_neg he]
                    rcases processTyList_maxL_mono env tbl k r.nextV r.tyList
                        { st with nv := r.nextV } with hpe | ⟨hple, hpFS⟩
                    · exact ih _ _ (Or.inl hpe)
                    · exact ih _ _ (Or.inr ⟨Or.inl hple, hpFS⟩)
      · rw [resolveLoop_stop env tbl k su hstop (fuel + 1)]
        exact (resolveLoop_FS env tbl (k + 1) (fuel + 1) st).trans hFS

/-- C4: over the same frozen collection tables and starting with an
empty cache, the set `findCalleesWithMLTA` returns with
`MAX_TYPE_LAYER = k + 1` is a subset of the set returned with
`MAX_TYPE_LAYER = k` (for every `k`, in particular every `k ≥ 1`): a
larger layer budget only performs further intersections. -/
theorem findCalleesWithMLTA_layer_mono (env : IREnv) (tbl : RTables)
    (ci : CallRec) (k : Nat) :
    (findCalleesWithMLTA env tbl (k + 1) ci []).1.FS ⊆
      (findCalleesWithMLTA env tbl k ci []).1.FS := by
  unfold findCalleesWithMLTA
  dsimp only
  split
  · exact Finset.Subset.refl _
  · have hst := resolveLoop_fuel_stable env tbl k k
      ⟨tbl.sigFuncsMap ci.chash, [], some ci.calledOp, none, 1, ci.funcTy,
        true⟩ (by omega)
    rw [← hst]
    exact resolveLoop_maxL_mono env tbl k (k + 1) _ _ (Or.inl rfl)

/-- C3 (amended): in sound mode, when an uncached layer `(T, i)` is in
`typeEscapeSet` (under `i` or under `-1`) and `MAX_TYPE_LAYER` has not
been reached, the resolver skips that layer and the remaining entries
of the current `TyList` without touching `FS`, the cache, `CV` or
`PrevLayerTy`; only `LayerNo` advances.  The source `break` leaves only
the inner `for`: `ContinueNextLayer` stays `true`, so the outer loop
walks on from the current `CV` (see the counterexample for a run whose
`FS` shrinks after an escaped layer). -/
theorem escape_skips_tyList (env : IREnv) (tbl : RTables) (maxL : Nat)
    (nv : Option Nat) (ti : TyV × Int) (rest : List (TyV × Int))
    (st : RState)
    (hs : env.sound = true)
    (hc : lookupA st.cache (ti.1.ty, ti.2) = none)
    (he : (ti.1.ty, ti.2) ∈ tbl.escapeSet ∨
      (ti.1.ty, (-1 : Int)) ∈ tbl.escapeSet)
    (hl : st.layerNo < maxL) :
    processTyList env tbl maxL nv (ti :: rest) st =
      { st with layerNo := st.layerNo + 1 } := by
  have hstep : layerStep env tbl maxL nv ti st =
      ({ st with layerNo := st.layerNo + 1 }, false) := by
    unfold layerStep
    rw [if_neg (Nat.not_le.mpr hl)]
    dsimp only
    rw [hc]
    dsimp only
    rw [if_pos ⟨hs, he⟩]
  rw [processTyList, hstep]
  rfl

/-- Tables for the C3 amended-theorem witness: the layer `(i8, 1)` is
escaped. -/
def tblX : RTables :=
  ⟨fun _ => {1, 2}, [], [], ∅, {((Ty.int 8 : Ty), (1 : Int))}⟩

/-- A mid-resolution state for the C3 amended-theorem witness. -/
def stX : RState :=
  ⟨{1, 2}, [], some 0, none, 1, ⟨0, .func (.int 32) []⟩, true⟩

/-- Witness for the amended C3 theorem at a concrete state. -/
theorem escape_skips_tyList_witness :
    envW.sound = true ∧
    lookupA stX.cache ((Ty.int 8 : Ty), (1 : Int)) = none ∧
    ((Ty.int 8 : Ty), (1 : Int)) ∈ tblX.escapeSet ∧
    stX.layerNo < 10 ∧
    processTyList envW tblX 10 none [(⟨0, Ty.int 8⟩, 1)] stX =
      { stX with layerNo := stX.layerNo + 1 } :=
  ⟨rfl, rfl, by decide, by decide,
    escape_skips_tyList envW tblX 10 none (⟨0, Ty.int 8⟩, 1) [] stX rfl rfl
      (Or.inl (by decide)) (by decide)⟩

/-- The inner struct `S2` of the C3 counterexample. -/
def S2c : Ty := .strct "S2" [.int 8, .int 8, .int 32]

/-- The outer struct `S1` (escaped at field 1) of the C3
counterexample. -/
def S1c : Ty := .strct "S1" [.int 8, S2c]

/-- The container struct `S3` of the C3 counterexample. -/
def S3c : Ty := .strct "S3" [.int 8, .int 64]

/-- C3 counterexample program: the called operand `0` loads from a GEP
into `S1` (layers `(S2, 2)` then `(S1, 1)`) whose pointer operand is a
GEP into `S3` (layer `(S3, 1)`) on an argument. -/
def envC3 : IREnv where
  N := 4
  node := fun v =>
    match v with
    | 0 => ⟨.load 1, ⟨0, .ptr (.func (.int 32) [])⟩, true, false⟩
    | 1 => ⟨.gep 2 ⟨0, S1c⟩ [some 0, some 1, some 2] [],
            ⟨0, .ptr (.int 32)⟩, true, false⟩
    | 2 => ⟨.gep 3 ⟨0, S3c⟩ [some 0, some 1] [],
            ⟨0, .ptr S1c⟩, true, false⟩
    | _ => ⟨.arg, ⟨0, .ptr S3c⟩, false, false⟩
  aliasPtr := fun _ => none
  gepOffsetIndices := fun _ _ => []
  isIntrinsic := fun _ => false
  stripPC := fun x => x
  fieldInsensitive := false
  sound := true

/-- C3 counterexample tables: seed `{1, 2}`; targets `{1, 2}` at
`(S2, 2)` and `{1}` at `(S3, 1)`; the layer `(S1, 1)` is escaped. -/
def tblC3 : RTables :=
  ⟨fun _ => {1, 2},
   [((S2c, 2), 1), ((S2c, 2), 2), ((S3c, 1), 1)],
   [], ∅, {(S1c, (1 : Int))}⟩

/-- The C3 counterexample call: called operand `0`. -/
def ciC3 : CallRec :=
  ⟨false, 7, [], ⟨0, .int 32⟩, 0, ⟨0, .func (.int 32) []⟩, 0⟩

/-- C3 counterexample: in sound mode the walker's first pass yields
`[(S2, 2), (S1, 1)]` with `(S1, 1)` escaped and uncached, yet the
resolver does not stop: it walks on past the escape, processes the
next layer `(S3, 1)` (final `LayerNo = 4`), and intersects `FS` down
to `{1}` — the result does not keep the value `{1, 2}` it had when the
escaped layer was reached. -/
theorem escape_does_not_stop_cx :
    envC3.sound = true ∧
    (S1c, (1 : Int)) ∈ tblC3.escapeSet ∧
    tblC3.sigFuncsMap ciC3.chash = {1, 2} ∧
    ((nextLayerBaseTypeF envC3 (envC3.N + 1) (some ciC3.calledOp) [] none
        ∅).map (fun r => r.tyList.map (fun p => (p.1.ty, p.2))) =
      some [(S2c, 2), (S1c, 1)]) ∧
    (findCalleesWithMLTA envC3 tblC3 10 ciC3 []).2 = true ∧
    (findCalleesWithMLTA envC3 tblC3 10 ciC3 []).1.layerNo = 4 ∧
    (findCalleesWithMLTA envC3 tblC3 10 ciC3 []).1.FS = {1} ∧
    ¬ (findCalleesWithMLTA envC3 tblC3 10 ciC3 []).1.FS = {1, 2} :=
  ⟨rfl, by decide, by decide, by decide, by decide, by decide, by decide,
    by decide⟩

end MLTA
